import Mathlib

/-!
# Verification of the kairo extraction-and-query engine

A shallow embedding, in Lean 4, of the core of `src-tauri/src/db`
(indexer, schema, search, dataview) of the kairo repository, together
with theorems settling the frozen specification claims.

Strings manipulated by the Rust source are modelled as `List Char`
(sequences of Unicode scalar values); byte indices into a Rust `&str`
are modelled through the UTF-8 width `Char.utf8Size` of each scalar.
Rust's ASCII-only character classes (`[a-zA-Z]`, `\d`) are modelled with
the corresponding ASCII predicates; `\w` and lower-casing are modelled
on ASCII, which is the fragment exercised by every theorem below.
-/

namespace Kairo

/-! ## Byte-index model of Rust strings

`byteLen` is `str::len` (the UTF-8 byte length); `isCharBoundary` is
`str::is_char_boundary`.
-/

/-- UTF-8 byte length of a string, `str::len` in the source. -/
def byteLen (s : List Char) : Nat :=
  (s.map Char.utf8Size).sum

/-- `str::is_char_boundary`: `i` is `0`, the byte length, or the start
of an encoded character. -/
def isCharBoundary : List Char → Nat → Bool
  | _, 0 => true
  | [], _ + 1 => false
  | c :: cs, i + 1 =>
    if i + 1 < c.utf8Size then false else isCharBoundary cs (i + 1 - c.utf8Size)

@[simp] theorem isCharBoundary_zero (s : List Char) : isCharBoundary s 0 = true := by
  cases s <;> rfl

theorem one_le_utf8Size (c : Char) : 1 ≤ c.utf8Size := by
  unfold Char.utf8Size
  dsimp only
  split_ifs <;> omega

theorem byteLen_take_succ_cons (c : Char) (cs : List Char) (n : Nat) :
    byteLen ((c :: cs).take (n + 1)) = c.utf8Size + byteLen (cs.take n) := by
  simp [byteLen, List.take_succ_cons]

theorem isCharBoundary_byteLen (s : List Char) : isCharBoundary s (byteLen s) = true := by
  induction s with
  | nil => rfl
  | cons c cs ih =>
    have h1 : 1 ≤ c.utf8Size := one_le_utf8Size c
    have : byteLen (c :: cs) = c.utf8Size + byteLen cs := by
      simp [byteLen, List.map_cons, List.sum_cons]
    rw [this]
    rcases Nat.exists_eq_add_of_le h1 with ⟨k, hk⟩
    rw [hk]
    show isCharBoundary (c :: cs) (1 + k + byteLen cs) = true
    have harith : 1 + k + byteLen cs = (k + byteLen cs) + 1 := by omega
    rw [harith]
    unfold isCharBoundary
    have hlt : ¬ (k + byteLen cs + 1 < c.utf8Size) := by omega
    simp only [hlt, if_false]
    have : k + byteLen cs + 1 - c.utf8Size = byteLen cs := by omega
    rw [this, ih]

/-- A boundary splits the string into a whole-character prefix of that
byte length and a remainder: no character is ever split at a boundary. -/
theorem isCharBoundary_iff_exists (s : List Char) (i : Nat) :
    isCharBoundary s i = true ↔ ∃ n, byteLen (s.take n) = i := by
  induction s generalizing i with
  | nil =>
    cases i with
    | zero => simp [byteLen]
    | succ j =>
      simp only [isCharBoundary, List.take_nil]
      constructor
      · intro h; cases h
      · rintro ⟨n, hn⟩; simp [byteLen] at hn
  | cons c cs ih =>
    cases i with
    | zero =>
      simp only [isCharBoundary_zero, true_iff]
      exact ⟨0, by simp [byteLen]⟩
    | succ j =>
      unfold isCharBoundary
      by_cases hlt : j + 1 < c.utf8Size
      · simp only [hlt, if_true]
        constructor
        · intro h; cases h
        · rintro ⟨n, hn⟩
          cases n with
          | zero => simp [byteLen] at hn
          | succ m =>
            have h1 : 1 ≤ c.utf8Size := one_le_utf8Size c
            rw [byteLen_take_succ_cons] at hn
            omega
      · simp only [hlt, if_false]
        rw [ih]
        constructor
        · rintro ⟨n, hn⟩
          refine ⟨n + 1, ?_⟩
          rw [byteLen_take_succ_cons]
          omega
        · rintro ⟨n, hn⟩
          cases n with
          | zero => simp [byteLen] at hn
          | succ m =>
            refine ⟨m, ?_⟩
            rw [byteLen_take_succ_cons] at hn
            omega

/-! ## `floor_char_boundary` / `ceil_char_boundary` (indexer.rs 11-34)

The decrement / increment loops of the source are modelled by
structural recursion on the index (respectively on the remaining
distance to the end of the string).
-/

/-- The `while idx > 0 && !s.is_char_boundary(idx) { idx -= 1 }` loop. -/
def floorAux (s : List Char) : Nat → Nat
  | 0 => 0
  | i + 1 => if isCharBoundary s (i + 1) then i + 1 else floorAux s i

/-- `floor_char_boundary` from `indexer.rs`: the nearest character
boundary at or before `index`, clamped to the byte length. -/
def floorCharBoundary (s : List Char) (index : Nat) : Nat :=
  if index ≥ byteLen s then byteLen s else floorAux s index

/-- The `while idx < s.len() && !s.is_char_boundary(idx) { idx += 1 }` loop. -/
def ceilAux (s : List Char) (i : Nat) : Nat :=
  if h : i < byteLen s then
    if isCharBoundary s i then i else ceilAux s (i + 1)
  else i
termination_by byteLen s - i

/-- `ceil_char_boundary` from `indexer.rs`: the nearest character
boundary at or after `index`, clamped to the byte length. -/
def ceilCharBoundary (s : List Char) (index : Nat) : Nat :=
  if index ≥ byteLen s then byteLen s else ceilAux s index

theorem floorAux_le (s : List Char) (i : Nat) : floorAux s i ≤ i := by
  induction i with
  | zero => simp [floorAux]
  | succ j ih =>
    unfold floorAux
    split
    · exact Nat.le_refl _
    · exact Nat.le_trans ih (Nat.le_succ j)

theorem floorAux_boundary (s : List Char) (i : Nat) :
    isCharBoundary s (floorAux s i) = true := by
  induction i with
  | zero => simp [floorAux]
  | succ j ih =>
    unfold floorAux
    split
    · assumption
    · exact ih

theorem floorCharBoundary_boundary (s : List Char) (i : Nat) :
    isCharBoundary s (floorCharBoundary s i) = true := by
  unfold floorCharBoundary
  split
  · exact isCharBoundary_byteLen s
  · exact floorAux_boundary s i

theorem floorCharBoundary_le (s : List Char) (i : Nat) (h : i ≤ byteLen s) :
    floorCharBoundary s i ≤ i := by
  unfold floorCharBoundary
  split
  · omega
  · exact floorAux_le s i

theorem ceilAux_ge (s : List Char) (i : Nat) : i ≤ ceilAux s i := by
  unfold ceilAux
  split
  · split
    · exact Nat.le_refl _
    · exact Nat.le_trans (Nat.le_succ i) (ceilAux_ge s (i + 1))
  · exact Nat.le_refl _
termination_by byteLen s - i

theorem ceilAux_boundary (s : List Char) (i : Nat) (h : i ≤ byteLen s) :
    isCharBoundary s (ceilAux s i) = true := by
  unfold ceilAux
  split
  · split
    · assumption
    · exact ceilAux_boundary s (i + 1) (by omega)
  · have : i = byteLen s := by omega
    rw [this]
    exact isCharBoundary_byteLen s
termination_by byteLen s - i

theorem ceilAux_le_byteLen (s : List Char) (i : Nat) (h : i ≤ byteLen s) :
    ceilAux s i ≤ byteLen s := by
  unfold ceilAux
  split
  · split
    · omega
    · exact ceilAux_le_byteLen s (i + 1) (by omega)
  · omega
termination_by byteLen s - i

theorem ceilCharBoundary_boundary (s : List Char) (i : Nat) :
    isCharBoundary s (ceilCharBoundary s i) = true := by
  unfold ceilCharBoundary
  split
  · exact isCharBoundary_byteLen s
  · exact ceilAux_boundary s i (by omega)

theorem ceilCharBoundary_ge (s : List Char) (i : Nat) (h : i ≤ byteLen s) :
    i ≤ ceilCharBoundary s i := by
  unfold ceilCharBoundary
  split
  · omega
  · exact ceilAux_ge s i

theorem ceilCharBoundary_le_byteLen (s : List Char) (i : Nat) :
    ceilCharBoundary s i ≤ byteLen s := by
  unfold ceilCharBoundary
  split
  · omega
  · exact ceilAux_le_byteLen s i (by omega)

/-- The context-window bounds computed by `extract_links`
(`indexer.rs` 637-638): `matchPos` is the byte position of the match,
`matchLen` its byte length. -/
def contextWindow (s : List Char) (matchPos matchLen : Nat) : Nat × Nat :=
  (floorCharBoundary s (matchPos - 30),
   ceilCharBoundary s (min (matchPos + matchLen + 30) (byteLen s)))

theorem byteLen_append (x y : List Char) :
    byteLen (x ++ y) = byteLen x + byteLen y := by
  simp [byteLen]

theorem byteLen_take_le (s : List Char) (n : Nat) :
    byteLen (s.take n) ≤ byteLen s := by
  conv_rhs => rw [← List.take_append_drop n s]
  rw [byteLen_append]
  omega

theorem byteLen_take_mono (s : List Char) {n m : Nat} (h : n ≤ m) :
    byteLen (s.take n) ≤ byteLen (s.take m) := by
  have : s.take n = (s.take m).take n := by
    rw [List.take_take, Nat.min_eq_left h]
  rw [this]
  exact byteLen_take_le (s.take m) n

/-- Two character boundaries `a ≤ b` decompose the string into whole
characters before `a`, between `a` and `b`, and after `b`. -/
theorem boundary_decomposition (s : List Char) (a b : Nat)
    (ha : isCharBoundary s a = true) (hb : isCharBoundary s b = true)
    (hab : a ≤ b) :
    ∃ pre mid post, s = pre ++ mid ++ post ∧
      byteLen pre = a ∧ byteLen pre + byteLen mid = b := by
  obtain ⟨n, hn⟩ := (isCharBoundary_iff_exists s a).1 ha
  obtain ⟨m, hm⟩ := (isCharBoundary_iff_exists s b).1 hb
  rcases le_or_lt n m with hnm | hmn
  · refine ⟨s.take n, (s.take m).drop n, s.drop m, ?_, hn, ?_⟩
    · have h1 : s.take n = (s.take m).take n := by
        rw [List.take_take, Nat.min_eq_left hnm]
      rw [h1, List.take_append_drop, List.take_append_drop]
    · have h2 : s.take m = s.take n ++ (s.take m).drop n := by
        conv_lhs => rw [← List.take_append_drop n (s.take m)]
        rw [List.take_take, Nat.min_eq_left hnm]
      have := congrArg byteLen h2
      rw [byteLen_append] at this
      omega
  · have : byteLen (s.take m) ≤ byteLen (s.take n) :=
      byteLen_take_mono s (Nat.le_of_lt hmn)
    have hab' : a = b := by omega
    refine ⟨s.take n, [], s.drop n, ?_, hn, ?_⟩
    · simp [List.take_append_drop]
    · have hnil : byteLen ([] : List Char) = 0 := rfl
      rw [hnil, Nat.add_zero, hn, hab']

/-- Claim C8: context-window extraction (`extract_links`, via
`floor_char_boundary` / `ceil_char_boundary`) never splits a character.
For any content and any match at byte position `matchPos` (of byte
length `matchLen`) inside it, the window start and end are valid
character boundaries, the start does not exceed the end (so the slice
`content[start..end]` cannot panic), and the extracted context is a
whole-character — hence round-trip-decodable — substring of the
content. -/
theorem contextWindow_safe (s : List Char) (matchPos matchLen : Nat)
    (h : matchPos ≤ byteLen s) :
    isCharBoundary s (contextWindow s matchPos matchLen).1 = true ∧
    isCharBoundary s (contextWindow s matchPos matchLen).2 = true ∧
    (contextWindow s matchPos matchLen).1 ≤ (contextWindow s matchPos matchLen).2 ∧
    ∃ pre mid post, s = pre ++ mid ++ post ∧
      byteLen pre = (contextWindow s matchPos matchLen).1 ∧
      byteLen pre + byteLen mid = (contextWindow s matchPos matchLen).2 := by
  have hfloor := floorCharBoundary_boundary s (matchPos - 30)
  have hceil := ceilCharBoundary_boundary s (min (matchPos + matchLen + 30) (byteLen s))
  have hle : (contextWindow s matchPos matchLen).1 ≤ (contextWindow s matchPos matchLen).2 := by
    have h1 : floorCharBoundary s (matchPos - 30) ≤ matchPos - 30 :=
      floorCharBoundary_le s (matchPos - 30) (by omega)
    have h2 : min (matchPos + matchLen + 30) (byteLen s) ≤
        ceilCharBoundary s (min (matchPos + matchLen + 30) (byteLen s)) :=
      ceilCharBoundary_ge s _ (by omega)
    have h3 : matchPos - 30 ≤ min (matchPos + matchLen + 30) (byteLen s) := by omega
    simpa [contextWindow] using Nat.le_trans h1 (Nat.le_trans h3 h2)
  refine ⟨hfloor, hceil, hle, ?_⟩
  exact boundary_decomposition s _ _ hfloor hceil hle

/-- Concrete witness for `contextWindow_safe`: content with two-byte
characters (`β`) directly adjacent to the link match `[[x]]`, which
starts at byte offset 4 and spans 5 bytes. -/
theorem contextWindow_safe_witness :
    4 ≤ byteLen ("ββ[[x]]ββ".toList) ∧
    (isCharBoundary ("ββ[[x]]ββ".toList) (contextWindow ("ββ[[x]]ββ".toList) 4 5).1 = true ∧
     isCharBoundary ("ββ[[x]]ββ".toList) (contextWindow ("ββ[[x]]ββ".toList) 4 5).2 = true ∧
     (contextWindow ("ββ[[x]]ββ".toList) 4 5).1 ≤ (contextWindow ("ββ[[x]]ββ".toList) 4 5).2 ∧
     ∃ pre mid post, "ββ[[x]]ββ".toList = pre ++ mid ++ post ∧
       byteLen pre = (contextWindow ("ββ[[x]]ββ".toList) 4 5).1 ∧
       byteLen pre + byteLen mid = (contextWindow ("ββ[[x]]ββ".toList) 4 5).2) :=
  ⟨by decide, contextWindow_safe ("ββ[[x]]ββ".toList) 4 5 (by decide)⟩

/-! ## Rust `str::lines`

`lines()` splits at `\n`, strips a trailing `\r` from each line, and
does not produce a final empty line for a trailing `\n`.
-/

def linesAux : List Char → List Char → List (List Char)
  | [], acc => [acc.reverse]
  | '\n' :: rest, acc => acc.reverse :: linesAux rest []
  | c :: rest, acc => linesAux rest (c :: acc)

/-- Strip one trailing carriage return, as `str::lines` does. -/
def stripCR (l : List Char) : List Char :=
  match l.getLast? with
  | some '\r' => l.dropLast
  | _ => l

/-- Rust `str::lines`. -/
def rustLines (s : List Char) : List (List Char) :=
  if s = [] then []
  else
    let ls := linesAux s []
    let ls := if s.getLast? = some '\n' then ls.dropLast else ls
    ls.map stripCR

/-! ## Front matter

`serde_yaml_to_json` (`indexer.rs` 375-466) stores, under each root
key, either a JSON string or a JSON array of strings; `extract_tags`
and `extract_aliases` re-parse that JSON. The round trip through JSON
text is the identity on this map, so front matter is modelled directly
as the key→value association list. -/

/-- A front-matter value: `serde_yaml_to_json` only ever produces a
string or an array of strings. -/
inductive FmValue where
  | str (s : String)
  | arr (items : List String)
deriving DecidableEq, Repr

/-- `json.get(key)` on the front-matter object: first binding wins. -/
def fmLookup (fm : List (String × FmValue)) (k : String) : Option FmValue :=
  (fm.find? (fun p => p.1 = k)).map (fun p => p.2)

/-! ## `extract_tags` (indexer.rs 544-570) -/

/-- ASCII model of the regex word class `\w`. -/
def isWordChar (c : Char) : Bool := c.isAlphanum || c = '_'

/-- Scanner state for the inline-hashtag pattern `#([a-zA-Z]\w*)`:
either plain scanning, just after a `#`, or inside a capture group
(accumulated in reverse). -/
inductive HashScan where
  | scan
  | hash
  | word (acc : List Char)

/-- Character-level transcription of `captures_iter` for the pattern
`#([a-zA-Z]\w*)`: leftmost, non-overlapping matches; a failed attempt
at one `#` resumes at the very next character. -/
def findHashtagsGo : List Char → HashScan → List (List Char)
  | [], HashScan.word acc => [acc.reverse]
  | [], _ => []
  | c :: rest, HashScan.scan =>
    findHashtagsGo rest (if c = '#' then HashScan.hash else HashScan.scan)
  | c :: rest, HashScan.hash =>
    if c.isAlpha then findHashtagsGo rest (HashScan.word [c])
    else findHashtagsGo rest (if c = '#' then HashScan.hash else HashScan.scan)
  | c :: rest, HashScan.word acc =>
    if isWordChar c then findHashtagsGo rest (HashScan.word (c :: acc))
    else acc.reverse :: findHashtagsGo rest (if c = '#' then HashScan.hash else HashScan.scan)

/-- All capture groups of the inline-hashtag regex `#([a-zA-Z]\w*)`
over the content, in match order (`extract_tags`, indexer.rs 561-562). -/
def findHashtags (l : List Char) : List (List Char) :=
  findHashtagsGo l HashScan.scan

/-- The front-matter contribution to `extract_tags`: the items of the
`tags` key when it holds an array (a scalar `tags` value fails the
`as_array` cast and contributes nothing). -/
def fmArrayTags (frontmatter : Option (List (String × FmValue))) : List String :=
  match frontmatter with
  | some fm =>
    match fmLookup fm "tags" with
    | some (FmValue.arr items) => items
    | _ => []
  | none => []

/-- The loop body `if !tags.contains(&tag) { tags.push(tag) }`. -/
def dedupPush (tags : List String) (tag : String) : List String :=
  if tags.contains tag then tags else tags ++ [tag]

/-- `extract_tags`: front-matter `tags` array items, then each inline
hashtag capture appended only if not already collected. -/
def extract_tags (content : List Char)
    (frontmatter : Option (List (String × FmValue))) : List String :=
  ((findHashtags content).map String.mk).foldl dedupPush (fmArrayTags frontmatter)

/-! ## `extract_code_blocks` (indexer.rs 572-614) -/

/-- The fence marker `` ``` `` as a character list. -/
def fencePrefix : List Char := "```".toList

/-- `line.strip_prefix("```")`. -/
def stripFence (line : List Char) : Option (List Char) :=
  if fencePrefix.isPrefixOf line then some (line.drop fencePrefix.length) else none

/-- Rust `str::trim` restricted to ASCII whitespace. -/
def trimChars (l : List Char) : List Char :=
  ((l.dropWhile Char.isWhitespace).reverse.dropWhile Char.isWhitespace).reverse

/-- One emitted code block: (language, content, start line, end line). -/
structure CodeBlock where
  lang : Option (List Char)
  content : List Char
  lineStart : Nat
  lineEnd : Nat
deriving DecidableEq, Repr

/-- The mutable locals of the `extract_code_blocks` loop. -/
structure CBState where
  blocks : List CodeBlock
  inBlock : Bool
  curLang : Option (List Char)
  curContent : List Char
  startLine : Nat
deriving Repr

/-- One iteration of the fenced-block scanner, on the
`(0-based index, line)` pair from `enumerate`. -/
def cbStep (st : CBState) : Nat × List Char → CBState
  | (idx, line) =>
    let lineNum := idx + 1
    match stripFence line with
    | some afterBackticks =>
      if st.inBlock then
        { st with
          blocks := st.blocks ++ [⟨st.curLang, st.curContent, st.startLine, lineNum⟩],
          curContent := [], curLang := none, inBlock := false }
      else
        let lang := trimChars afterBackticks
        { st with inBlock := true, startLine := lineNum,
                  curLang := if lang = [] then none else some lang }
    | none =>
      if st.inBlock then
        { st with curContent :=
            if st.curContent = [] then line else st.curContent ++ '\n' :: line }
      else st

/-- `extract_code_blocks`: scan the lines, toggling in/out of a block
on each fence line; a trailing unterminated block is never pushed. -/
def extract_code_blocks (content : List Char) : List CodeBlock :=
  (((rustLines content).enum).foldl cbStep ⟨[], false, none, [], 0⟩).blocks

/-! ## Theorems about `extract_tags` (claim C9) -/

theorem dedupPush_mem (acc : List String) (x t : String) :
    t ∈ dedupPush acc x ↔ t ∈ acc ∨ t = x := by
  unfold dedupPush
  split
  case isTrue h =>
    have hx : x ∈ acc := by
      simpa using h
    constructor
    · exact Or.inl
    · rintro (ht | rfl)
      · exact ht
      · exact hx
  case isFalse h =>
    simp [List.mem_append]

theorem dedupPush_nodup (acc : List String) (x : String) (h : acc.Nodup) :
    (dedupPush acc x).Nodup := by
  unfold dedupPush
  split
  case isTrue _ => exact h
  case isFalse hc =>
    have hx : x ∉ acc := by
      simpa using hc
    simp [List.nodup_append, h, hx]

theorem foldl_dedupPush_mem (l : List String) :
    ∀ (acc : List String) (t : String),
      t ∈ l.foldl dedupPush acc ↔ t ∈ acc ∨ t ∈ l := by
  induction l with
  | nil => simp
  | cons x xs ih =>
    intro acc t
    simp only [List.foldl_cons]
    rw [ih]
    rw [dedupPush_mem]
    simp only [List.mem_cons]
    tauto

theorem foldl_dedupPush_nodup (l : List String) :
    ∀ (acc : List String), acc.Nodup → (l.foldl dedupPush acc).Nodup := by
  induction l with
  | nil => intro acc h; simpa using h
  | cons x xs ih =>
    intro acc h
    simp only [List.foldl_cons]
    exact ih _ (dedupPush_nodup acc x h)

/-- Counterexample to claim C9 as stated: duplicates are *not* all
removed. A front matter whose `tags` array holds `x` twice yields `x`
twice in `extract_tags` (the front-matter loop pushes without a
`contains` check), and a scalar front-matter `tags` value contributes
nothing (it fails the `as_array` cast). -/
theorem extract_tags_counterexample :
    extract_tags [] (some [("tags", FmValue.arr ["x", "x"])]) = ["x", "x"] ∧
    (extract_tags [] (some [("tags", FmValue.arr ["x", "x"])])).count "x" = 2 ∧
    extract_tags [] (some [("tags", FmValue.str "solo")]) = [] := by
  refine ⟨by decide, by decide, by decide⟩

/-- Claim C9, amended: `extract_tags` returns the union of the
front-matter `tags` *array* items (a scalar `tags` value contributes
nothing) and the inline hashtag tokens; inline tokens are deduplicated
against everything already collected, so the result is duplicate-free
whenever the front-matter tag array itself is duplicate-free. -/
theorem extract_tags_amended (content : List Char)
    (frontmatter : Option (List (String × FmValue))) :
    (∀ t, t ∈ extract_tags content frontmatter ↔
        t ∈ fmArrayTags frontmatter ∨ t ∈ (findHashtags content).map String.mk) ∧
    ((fmArrayTags frontmatter).Nodup → (extract_tags content frontmatter).Nodup) := by
  constructor
  · intro t
    exact foldl_dedupPush_mem _ _ t
  · intro h
    exact foldl_dedupPush_nodup _ _ h

/-- Witness for `extract_tags_amended` at a concrete note: content
`#b #a #b` and front matter `tags: [a]`. -/
theorem extract_tags_amended_witness :
    ("a" ∈ extract_tags ("#b #a #b".toList) (some [("tags", FmValue.arr ["a"])]) ↔
        "a" ∈ fmArrayTags (some [("tags", FmValue.arr ["a"])]) ∨
        "a" ∈ (findHashtags ("#b #a #b".toList)).map String.mk) ∧
    (fmArrayTags (some [("tags", FmValue.arr ["a"])])).Nodup ∧
    (extract_tags ("#b #a #b".toList) (some [("tags", FmValue.arr ["a"])])).Nodup :=
  ⟨(extract_tags_amended ("#b #a #b".toList) (some [("tags", FmValue.arr ["a"])])).1 "a",
   by decide,
   (extract_tags_amended ("#b #a #b".toList) (some [("tags", FmValue.arr ["a"])])).2
     (by decide)⟩

/-! ## Theorems about `extract_code_blocks` (claim C10) -/

/-- A line that opens or closes a fenced block. -/
def isFenceLine (line : List Char) : Bool := fencePrefix.isPrefixOf line

theorem stripFence_some_iff (line : List Char) :
    (∃ a, stripFence line = some a) ↔ isFenceLine line = true := by
  unfold stripFence isFenceLine
  split <;> simp_all

/-- A block is well-delimited with respect to the line list `L`. -/
def GoodBlock (L : List (List Char)) (b : CodeBlock) : Prop :=
  b.lineStart < b.lineEnd ∧
  (∃ lo, L[b.lineStart - 1]? = some lo ∧ isFenceLine lo = true) ∧
  (∃ hi, L[b.lineEnd - 1]? = some hi ∧ isFenceLine hi = true)

/-- Loop invariant of the fenced-block scanner after consuming the
first `n` lines of `L`. -/
def CBInv (L : List (List Char)) (n : Nat) (st : CBState) : Prop :=
  (∀ b ∈ st.blocks, GoodBlock L b) ∧
  (st.inBlock = true → 1 ≤ st.startLine ∧ st.startLine ≤ n ∧
      ∃ lo, L[st.startLine - 1]? = some lo ∧ isFenceLine lo = true) ∧
  st.inBlock = decide ((L.take n).countP isFenceLine % 2 = 1) ∧
  st.blocks.length = (L.take n).countP isFenceLine / 2

theorem cbStep_inv (L : List (List Char)) (n : Nat) (x : List Char)
    (st : CBState) (hx : L[n]? = some x) (hinv : CBInv L n st) :
    CBInv L (n + 1) (cbStep st (n, x)) := by
  obtain ⟨hgood, hstart, hpar, hlen⟩ := hinv
  have htake : (L.take (n + 1)).countP isFenceLine
      = (L.take n).countP isFenceLine + (if isFenceLine x then 1 else 0) := by
    rw [List.take_succ, hx]
    simp [List.countP_append, List.countP_cons]
  simp only [cbStep]
  cases hsf : stripFence x with
  | none =>
    -- not a fence line
    have hfx : isFenceLine x = false := by
      cases hiff : isFenceLine x with
      | false => rfl
      | true =>
        obtain ⟨a, ha⟩ := (stripFence_some_iff x).2 hiff
        rw [hsf] at ha
        cases ha
    simp [hfx] at htake
    dsimp only
    unfold CBInv
    split
    next hib =>
      refine ⟨?_, ?_, ?_, ?_⟩
      · exact hgood
      · intro _
        obtain ⟨h1, h2, h3⟩ := hstart hib
        refine ⟨h1, ?_, h3⟩
        show st.startLine ≤ n + 1
        omega
      · rw [htake]; exact hpar
      · rw [htake]; exact hlen
    next hib =>
      refine ⟨?_, ?_, ?_, ?_⟩
      · exact hgood
      · intro h
        obtain ⟨h1, h2, h3⟩ := hstart h
        refine ⟨h1, ?_, h3⟩
        show st.startLine ≤ n + 1
        omega
      · rw [htake]; exact hpar
      · rw [htake]; exact hlen
  | some after =>
    -- a fence line
    have hfx : isFenceLine x = true := (stripFence_some_iff x).1 ⟨after, hsf⟩
    simp [hfx] at htake
    dsimp only
    unfold CBInv
    split
    next hib =>
      -- closing fence: emit the block
      obtain ⟨h1, h2, h3⟩ := hstart hib
      have hodd : (L.take n).countP isFenceLine % 2 = 1 := by
        rw [hib] at hpar
        exact of_decide_eq_true hpar.symm
      refine ⟨?_, ?_, ?_, ?_⟩
      · intro b hb
        simp only [List.mem_append, List.mem_singleton] at hb
        rcases hb with hb | rfl
        · exact hgood b hb
        · exact ⟨by show st.startLine < n + 1; omega, h3, ⟨x, by simpa using hx, hfx⟩⟩
      · intro h
        exact absurd h (by simp)
      · show false = decide ((L.take (n + 1)).countP isFenceLine % 2 = 1)
        rw [htake]
        have hne : ((L.take n).countP isFenceLine + 1) % 2 ≠ 1 := by omega
        simp [hne]
      · show (st.blocks ++ [_]).length = (L.take (n + 1)).countP isFenceLine / 2
        simp only [List.length_append, List.length_singleton]
        rw [htake]
        omega
    next hib =>
      -- opening fence
      have hib' : st.inBlock = false := by
        revert hib
        cases st.inBlock <;> simp
      have heven : (L.take n).countP isFenceLine % 2 ≠ 1 := by
        rw [hib'] at hpar
        exact of_decide_eq_false hpar.symm
      refine ⟨?_, ?_, ?_, ?_⟩
      · exact hgood
      · intro _
        refine ⟨?_, ?_, ⟨x, by simpa using hx, hfx⟩⟩
        · show 1 ≤ n + 1
          omega
        · show n + 1 ≤ n + 1
          omega
      · show true = decide ((L.take (n + 1)).countP isFenceLine % 2 = 1)
        rw [htake]
        have hone : ((L.take n).countP isFenceLine + 1) % 2 = 1 := by omega
        simp [hone]
      · show st.blocks.length = (L.take (n + 1)).countP isFenceLine / 2
        rw [htake]
        omega

theorem cb_foldl_inv (L : List (List Char)) :
    ∀ (l : List (List Char)) (n : Nat) (st : CBState),
      L.drop n = l → CBInv L n st →
      CBInv L (n + l.length) ((List.enumFrom n l).foldl cbStep st) := by
  intro l
  induction l with
  | nil => intro n st _ h; simpa using h
  | cons x xs ih =>
    intro n st hdrop hinv
    have hx : L[n]? = some x := by
      have h0 : (L.drop n)[0]? = some x := by rw [hdrop]; simp
      rw [List.getElem?_drop] at h0
      simpa using h0
    have hdrop' : L.drop (n + 1) = xs := by
      have : L.drop (n + 1) = (L.drop n).drop 1 := by
        rw [List.drop_drop]
      rw [this, hdrop]
      rfl
    have hstep := cbStep_inv L n x st hx hinv
    have := ih (n + 1) (cbStep st (n, x)) hdrop' hstep
    simp only [List.enumFrom, List.foldl_cons, List.length_cons]
    have harith : n + 1 + xs.length = n + (xs.length + 1) := by omega
    rw [← harith]
    exact this

/-- Claim C10: every code block emitted by `extract_code_blocks` is
delimited by an opening and a closing fence line with start line <
end line (hence ≤), and the number of emitted blocks is the number of
fence lines divided by two (rounding down) — so a fence opened but
never closed before the end of the content produces no block at all. -/
theorem extract_code_blocks_spec (content : List Char) :
    (∀ b ∈ extract_code_blocks content, GoodBlock (rustLines content) b) ∧
    (extract_code_blocks content).length
      = (rustLines content).countP isFenceLine / 2 := by
  have hbase : CBInv (rustLines content) 0 ⟨[], false, none, [], 0⟩ := by
    unfold CBInv
    refine ⟨?_, ?_, ?_, ?_⟩
    · intro b hb; cases hb
    · intro h; cases h
    · simp
    · simp
  have h := cb_foldl_inv (rustLines content) (rustLines content) 0
    ⟨[], false, none, [], 0⟩ (by simp) hbase
  obtain ⟨hgood, _, _, hlen⟩ := h
  constructor
  · intro b hb
    apply hgood
    simpa [extract_code_blocks, List.enum] using hb
  · have heq : (rustLines content).take (0 + (rustLines content).length)
        = rustLines content := by simp
    rw [heq] at hlen
    simpa [extract_code_blocks, List.enum] using hlen

/-- Witness for `extract_code_blocks_spec`: one complete block followed
by an unterminated fence; the complete block is well-delimited and the
trailing fence contributes no block (3 fence lines, 3 / 2 = 1 block). -/
theorem extract_code_blocks_spec_witness :
    GoodBlock (rustLines ("```rs\ncode\n```\ntext\n```lost\ndata".toList))
      ⟨some ("rs".toList), "code".toList, 1, 3⟩ ∧
    (extract_code_blocks ("```rs\ncode\n```\ntext\n```lost\ndata".toList)).length = 1 :=
  ⟨(extract_code_blocks_spec ("```rs\ncode\n```\ntext\n```lost\ndata".toList)).1
      ⟨some ("rs".toList), "code".toList, 1, 3⟩ (by decide),
   by rfl⟩

/-! ## Dataview query model (`dataview.rs`)

The query compiler is embedded twice, branch for branch:
`build_condition` produces the SQL fragment and bound-parameter list
exactly as the source does (settling the injection hyperproperty), and
`buildCondSem` gives the SQLite evaluation semantics of that same
fragment over a modelled notes database (settling the execution
claims). SQLite's three-valued logic is modelled with `Option Bool`
(`none` = SQL NULL). -/

/-- A `serde_json::Value` in a condition leaf. Numbers are modelled as
integers (`n.to_string()` on a float differs only in the rendered
parameter text); composite values do not occur in condition leaves. -/
inductive Jv where
  | str (s : String)
  | num (n : Int)
  | bool (b : Bool)
  | null
deriving DecidableEq, Repr

/-- The value-to-parameter-text conversion of `map_operator_and_value`
(dataview.rs 335-341). -/
def jvToParam : Jv → String
  | Jv.str s => s
  | Jv.num n => toString n
  | Jv.bool b => if b then "1" else "0"
  | Jv.null => "NULL"

/-- `SerializedCondition` (dataview.rs 27-33). -/
inductive SCond where
  | mk (conditionType : String) (field : Option String) (operator : Option String)
       (value : Option Jv) (conditions : Option (List SCond))

def SCond.conditionType : SCond → String
  | SCond.mk t _ _ _ _ => t

def SCond.field : SCond → Option String
  | SCond.mk _ f _ _ _ => f

def SCond.operator : SCond → Option String
  | SCond.mk _ _ o _ _ => o

def SCond.value : SCond → Option Jv
  | SCond.mk _ _ _ v _ => v

def SCond.conditions : SCond → Option (List SCond)
  | SCond.mk _ _ _ _ cs => cs

/-- `map_field_to_sql` (dataview.rs 314-329): the SQL text a virtual or
front-matter field compiles to. -/
def map_field_to_sql (field : String) : String :=
  if field = "file.name" ∨ field = "title" then "n.title"
  else if field = "file.path" ∨ field = "path" then "n.path"
  else if field = "file.ctime" ∨ field = "created" then "n.created_at"
  else if field = "file.mtime" ∨ field = "modified" then "n.modified_at"
  else if field = "file.folder" then
    "substr(n.path, 1, length(n.path) - length(replace(n.path, \x27/\x27, \x27\x27)) - 1)"
  else if field = "file.tags" ∨ field = "tags" then "t.tag"
  else "json_extract(n.frontmatter, \x27$." ++ field ++ "\x27)"

/-- `str::to_uppercase`, restricted to ASCII (the known operator set is
pure ASCII). -/
def toUpperAscii (s : String) : String := String.mk (s.toList.map Char.toUpper)

/-- `map_operator_and_value` (dataview.rs 331-357): maps the operator
(upper-cased) to a SQL operator and positions the `LIKE` wildcards in
the *bound parameter*, never in the SQL text. -/
def map_operator_and_value (operator : String) (value : Jv) :
    Except String (String × String) :=
  let sql_value := jvToParam value
  let u := toUpperAscii operator
  if u = "=" then Except.ok ("=", sql_value)
  else if u = "!=" then Except.ok ("!=", sql_value)
  else if u = ">" then Except.ok (">", sql_value)
  else if u = "<" then Except.ok ("<", sql_value)
  else if u = ">=" then Except.ok (">=", sql_value)
  else if u = "<=" then Except.ok ("<=", sql_value)
  else if u = "CONTAINS" then Except.ok ("LIKE", "%" ++ sql_value ++ "%")
  else if u = "STARTSWITH" then Except.ok ("LIKE", sql_value ++ "%")
  else if u = "ENDSWITH" then Except.ok ("LIKE", "%" ++ sql_value)
  else Except.error ("Unknown operator: " ++ operator)

mutual
/-- `build_condition` (dataview.rs 247-312): compile a condition tree
to a SQL fragment plus its bound parameters. Rust's `?` propagation is
`Except.map` / `Except.bind`. -/
def build_condition : SCond → Except String (String × List String)
  | SCond.mk ctype field operator value conditions =>
    if ctype = "comparison" then
      match field with
      | none => Except.error "Missing field in comparison"
      | some f =>
        match operator with
        | none => Except.error "Missing operator in comparison"
        | some op =>
          match value with
          | none => Except.error "Missing value in comparison"
          | some v =>
            (map_operator_and_value op v).map (fun p =>
              (map_field_to_sql f ++ " " ++ p.1 ++ " ?", [p.2]))
    else if ctype = "and" then
      match conditions with
      | none => Except.error "Missing conditions in AND"
      | some cs =>
        (build_condition_list cs).map (fun p =>
          ("(" ++ String.intercalate " AND " p.1 ++ ")", p.2))
    else if ctype = "or" then
      match conditions with
      | none => Except.error "Missing conditions in OR"
      | some cs =>
        (build_condition_list cs).map (fun p =>
          ("(" ++ String.intercalate " OR " p.1 ++ ")", p.2))
    else if ctype = "not" then
      match conditions with
      | none => Except.error "Missing conditions in NOT"
      | some cs =>
        match cs with
        | [] => Except.error "Empty NOT conditions"
        | c :: _ =>
          (build_condition c).map (fun p => ("NOT (" ++ p.1 ++ ")", p.2))
    else Except.error ("Unknown condition type: " ++ ctype)

/-- The `for c in conditions { let (sql, p) = build_condition(c)?; … }`
loop shared by the AND and OR branches. -/
def build_condition_list : List SCond → Except String (List String × List String)
  | [] => Except.ok ([], [])
  | c :: rest =>
    (build_condition c).bind (fun p =>
      (build_condition_list rest).map (fun q => (p.1 :: q.1, p.2 ++ q.2)))
end

/-! ## Claim C2: leaf values never reach the SQL text -/

mutual
/-- Two condition trees have the same shape when they agree on
everything except the literal values in their leaves (each leaf must
have a value on both sides or on neither). -/
def sameShape : SCond → SCond → Bool
  | SCond.mk t₁ f₁ o₁ v₁ cs₁, SCond.mk t₂ f₂ o₂ v₂ cs₂ =>
    t₁ == t₂ && f₁ == f₂ && o₁ == o₂ && v₁.isSome == v₂.isSome &&
    (match cs₁, cs₂ with
     | none, none => true
     | some l₁, some l₂ => sameShapeList l₁ l₂
     | _, _ => false)

def sameShapeList : List SCond → List SCond → Bool
  | [], [] => true
  | c₁ :: r₁, c₂ :: r₂ => sameShape c₁ c₂ && sameShapeList r₁ r₂
  | _, _ => false
end

mutual
def condSize : SCond → Nat
  | SCond.mk _ _ _ _ none => 1
  | SCond.mk _ _ _ _ (some cs) => 1 + condListSize cs

def condListSize : List SCond → Nat
  | [] => 0
  | c :: rest => condSize c + condListSize rest
end

theorem condSize_pos (c : SCond) : 1 ≤ condSize c := by
  cases c with
  | mk t f o v cs => cases cs <;> simp [condSize]

theorem condSize_le_of_mem {cs : List SCond} {c : SCond} (h : c ∈ cs) :
    condSize c ≤ condListSize cs := by
  induction cs with
  | nil => cases h
  | cons x xs ih =>
    rcases List.mem_cons.1 h with rfl | h'
    · simp [condListSize]
    · have := ih h'
      simp only [condListSize]
      omega

/-- The SQL operator emitted by `map_operator_and_value` depends only
on the operator, never on the value. -/
theorem mov_shape (op : String) (a b : Jv) :
    Except.map Prod.fst (map_operator_and_value op a)
      = Except.map Prod.fst (map_operator_and_value op b) := by
  unfold map_operator_and_value
  dsimp only
  split_ifs <;> rfl

/-- If the element-wise property holds, the AND/OR folding loop emits
the same SQL parts for shape-equal lists. -/
theorem bcl_shape_pointwise :
    ∀ (l₁ l₂ : List SCond),
      (∀ c ∈ l₁, ∀ c', sameShape c c' = true →
        Except.map Prod.fst (build_condition c) = Except.map Prod.fst (build_condition c')) →
      sameShapeList l₁ l₂ = true →
      Except.map Prod.fst (build_condition_list l₁)
        = Except.map Prod.fst (build_condition_list l₂) := by
  intro l₁
  induction l₁ with
  | nil =>
    intro l₂ _ h
    cases l₂ with
    | nil => rfl
    | cons c r => simp [sameShapeList] at h
  | cons c₁ r₁ ih =>
    intro l₂ hpt h
    cases l₂ with
    | nil => simp [sameShapeList] at h
    | cons c₂ r₂ =>
      simp only [sameShapeList, Bool.and_eq_true] at h
      obtain ⟨hc, hr⟩ := h
      have hhead := hpt c₁ (List.mem_cons_self c₁ r₁) c₂ hc
      have htail := ih r₂ (fun c hc' => hpt c (List.mem_cons_of_mem c₁ hc')) hr
      simp only [build_condition_list]
      cases hb₁ : build_condition c₁ with
      | error e₁ =>
        cases hb₂ : build_condition c₂ with
        | error e₂ =>
          rw [hb₁, hb₂] at hhead
          simp only [Except.map] at hhead
          cases hhead
          rfl
        | ok p₂ =>
          rw [hb₁, hb₂] at hhead
          simp [Except.map] at hhead
      | ok p₁ =>
        cases hb₂ : build_condition c₂ with
        | error e₂ =>
          rw [hb₁, hb₂] at hhead
          simp [Except.map] at hhead
        | ok p₂ =>
          rw [hb₁, hb₂] at hhead
          simp only [Except.map, Except.ok.injEq] at hhead
          cases hl₁ : build_condition_list r₁ with
          | error f₁ =>
            cases hl₂ : build_condition_list r₂ with
            | error f₂ =>
              rw [hl₁, hl₂] at htail
              simp only [Except.map] at htail
              cases htail
              rfl
            | ok q₂ =>
              rw [hl₁, hl₂] at htail
              simp [Except.map] at htail
          | ok q₁ =>
            cases hl₂ : build_condition_list r₂ with
            | error f₂ =>
              rw [hl₁, hl₂] at htail
              simp [Except.map] at htail
            | ok q₂ =>
              rw [hl₁, hl₂] at htail
              simp only [Except.map, Except.ok.injEq] at htail
              obtain ⟨s₁, v₁⟩ := p₁
              obtain ⟨s₂, v₂⟩ := p₂
              obtain ⟨ps₁, pr₁⟩ := q₁
              obtain ⟨ps₂, pr₂⟩ := q₂
              simp only [Except.map]
              simp only at hhead htail
              rw [hhead, htail]
              rfl

theorem bc_shape_size :
    ∀ (k : Nat) (c₁ c₂ : SCond), condSize c₁ ≤ k → sameShape c₁ c₂ = true →
      Except.map Prod.fst (build_condition c₁)
        = Except.map Prod.fst (build_condition c₂) := by
  intro k
  induction k with
  | zero =>
    intro c₁ c₂ hsz _
    have := condSize_pos c₁
    omega
  | succ k ih =>
    intro c₁ c₂ hsz h
    cases c₁ with
    | mk t₁ f₁ o₁ v₁ cs₁ =>
    cases c₂ with
    | mk t₂ f₂ o₂ v₂ cs₂ =>
    unfold sameShape at h
    simp only [Bool.and_eq_true, beq_iff_eq] at h
    obtain ⟨⟨⟨⟨ht, hf⟩, ho⟩, hv⟩, hcs⟩ := h
    subst ht
    subst hf
    subst ho
    rw [build_condition.eq_def, build_condition.eq_def]
    dsimp only
    split_ifs
    · -- comparison
      cases f₁ with
      | none => rfl
      | some f =>
        cases o₁ with
        | none => rfl
        | some op =>
          cases v₁ with
          | none =>
            cases v₂ with
            | none => rfl
            | some b => simp at hv
          | some a =>
            cases v₂ with
            | none => simp at hv
            | some b =>
              dsimp only
              have hmv := mov_shape op a b
              cases hma : map_operator_and_value op a with
              | error e₁ =>
                cases hmb : map_operator_and_value op b with
                | error e₂ =>
                  rw [hma, hmb] at hmv
                  simp only [Except.map] at hmv
                  cases hmv
                  rfl
                | ok p₂ =>
                  rw [hma, hmb] at hmv
                  simp [Except.map] at hmv
              | ok p₁ =>
                cases hmb : map_operator_and_value op b with
                | error e₂ =>
                  rw [hma, hmb] at hmv
                  simp [Except.map] at hmv
                | ok p₂ =>
                  rw [hma, hmb] at hmv
                  simp only [Except.map, Except.ok.injEq] at hmv
                  obtain ⟨s₁, w₁⟩ := p₁
                  obtain ⟨s₂, w₂⟩ := p₂
                  simp only at hmv
                  simp only [Except.map, hmv]
    · -- and
      cases cs₁ with
      | none =>
        cases cs₂ with
        | none => rfl
        | some l₂ => simp at hcs
      | some l₁ =>
        cases cs₂ with
        | none => simp at hcs
        | some l₂ =>
          simp only at hcs
          dsimp only
          have hsub : ∀ c ∈ l₁, ∀ c', sameShape c c' = true →
              Except.map Prod.fst (build_condition c)
                = Except.map Prod.fst (build_condition c') := by
            intro c hc c' h'
            have h1 : condSize c ≤ condListSize l₁ := condSize_le_of_mem hc
            have h2 : 1 + condListSize l₁ ≤ k + 1 := by simpa [condSize] using hsz
            exact ih c c' (by omega) h'
          have hlist := bcl_shape_pointwise l₁ l₂ hsub hcs
          cases hl₁ : build_condition_list l₁ with
          | error f₁' =>
            cases hl₂ : build_condition_list l₂ with
            | error f₂' =>
              rw [hl₁, hl₂] at hlist
              simp only [Except.map] at hlist
              cases hlist
              rfl
            | ok q₂ =>
              rw [hl₁, hl₂] at hlist
              simp [Except.map] at hlist
          | ok q₁ =>
            cases hl₂ : build_condition_list l₂ with
            | error f₂' =>
              rw [hl₁, hl₂] at hlist
              simp [Except.map] at hlist
            | ok q₂ =>
              rw [hl₁, hl₂] at hlist
              simp only [Except.map, Except.ok.injEq] at hlist
              obtain ⟨ps₁, pr₁⟩ := q₁
              obtain ⟨ps₂, pr₂⟩ := q₂
              simp only at hlist
              simp only [Except.map, hlist]
    · -- or
      cases cs₁ with
      | none =>
        cases cs₂ with
        | none => rfl
        | some l₂ => simp at hcs
      | some l₁ =>
        cases cs₂ with
        | none => simp at hcs
        | some l₂ =>
          simp only at hcs
          dsimp only
          have hsub : ∀ c ∈ l₁, ∀ c', sameShape c c' = true →
              Except.map Prod.fst (build_condition c)
                = Except.map Prod.fst (build_condition c') := by
            intro c hc c' h'
            have h1 : condSize c ≤ condListSize l₁ := condSize_le_of_mem hc
            have h2 : 1 + condListSize l₁ ≤ k + 1 := by simpa [condSize] using hsz
            exact ih c c' (by omega) h'
          have hlist := bcl_shape_pointwise l₁ l₂ hsub hcs
          cases hl₁ : build_condition_list l₁ with
          | error f₁' =>
            cases hl₂ : build_condition_list l₂ with
            | error f₂' =>
              rw [hl₁, hl₂] at hlist
              simp only [Except.map] at hlist
              cases hlist
              rfl
            | ok q₂ =>
              rw [hl₁, hl₂] at hlist
              simp [Except.map] at hlist
          | ok q₁ =>
            cases hl₂ : build_condition_list l₂ with
            | error f₂' =>
              rw [hl₁, hl₂] at hlist
              simp [Except.map] at hlist
            | ok q₂ =>
              rw [hl₁, hl₂] at hlist
              simp only [Except.map, Except.ok.injEq] at hlist
              obtain ⟨ps₁, pr₁⟩ := q₁
              obtain ⟨ps₂, pr₂⟩ := q₂
              simp only at hlist
              simp only [Except.map, hlist]
    · -- not
      cases cs₁ with
      | none =>
        cases cs₂ with
        | none => rfl
        | some l₂ => simp at hcs
      | some l₁ =>
        cases cs₂ with
        | none => simp at hcs
        | some l₂ =>
          simp only at hcs
          cases l₁ with
          | nil =>
            cases l₂ with
            | nil => rfl
            | cons c₂' r₂ => simp [sameShapeList] at hcs
          | cons c₁' r₁ =>
            cases l₂ with
            | nil => simp [sameShapeList] at hcs
            | cons c₂' r₂ =>
              simp only [sameShapeList, Bool.and_eq_true] at hcs
              obtain ⟨hh, _⟩ := hcs
              dsimp only
              have hsize : condSize c₁' ≤ k := by
                have h1 : condSize c₁' ≤ condListSize (c₁' :: r₁) := by
                  simp [condListSize]
                have h2 : 1 + condListSize (c₁' :: r₁) ≤ k + 1 := by
                  simpa [condSize] using hsz
                omega
              have hhead := ih c₁' c₂' hsize hh
              cases hb₁ : build_condition c₁' with
              | error e₁ =>
                cases hb₂ : build_condition c₂' with
                | error e₂ =>
                  rw [hb₁, hb₂] at hhead
                  simp only [Except.map] at hhead
                  cases hhead
                  rfl
                | ok p₂ =>
                  rw [hb₁, hb₂] at hhead
                  simp [Except.map] at hhead
              | ok p₁ =>
                cases hb₂ : build_condition c₂' with
                | error e₂ =>
                  rw [hb₁, hb₂] at hhead
                  simp [Except.map] at hhead
                | ok p₂ =>
                  rw [hb₁, hb₂] at hhead
                  simp only [Except.map, Except.ok.injEq] at hhead
                  obtain ⟨s₁, w₁⟩ := p₁
                  obtain ⟨s₂, w₂⟩ := p₂
                  simp only at hhead
                  simp only [Except.map, hhead]
    · -- unknown condition type
      rfl

/-- Claim C2: for every pair of condition trees that differ only in
their leaf literal values (including values holding quotes or
semicolons), `build_condition` compiles them to the *identical* SQL
string — the values surface only in the bound-parameter list, so a
leaf value is never concatenated into query text and is treated as
data, not control syntax. -/
theorem build_condition_injection_safe (c₁ c₂ : SCond)
    (h : sameShape c₁ c₂ = true) :
    Except.map Prod.fst (build_condition c₁)
      = Except.map Prod.fst (build_condition c₂) :=
  bc_shape_size (condSize c₁) c₁ c₂ (Nat.le_refl _) h

/-- Witness for `build_condition_injection_safe`: the same query shape
with a benign value and with a value full of SQL metacharacters
compiles to the same SQL text, and the hostile value appears only in
the parameter list. -/
theorem build_condition_injection_safe_witness :
    sameShape
        (SCond.mk "comparison" (some "title") (some "=") (some (Jv.str "x")) none)
        (SCond.mk "comparison" (some "title") (some "=")
          (some (Jv.str "Robert\x27; DROP TABLE notes; --")) none) = true ∧
    Except.map Prod.fst (build_condition
        (SCond.mk "comparison" (some "title") (some "=") (some (Jv.str "x")) none))
      = Except.map Prod.fst (build_condition
        (SCond.mk "comparison" (some "title") (some "=")
          (some (Jv.str "Robert\x27; DROP TABLE notes; --")) none)) ∧
    build_condition
        (SCond.mk "comparison" (some "title") (some "=")
          (some (Jv.str "Robert\x27; DROP TABLE notes; --")) none)
      = Except.ok ("n.title = ?", ["Robert\x27; DROP TABLE notes; --"]) :=
  ⟨by rfl,
   build_condition_injection_safe _ _ (by rfl),
   by rfl⟩

/-! ## Semantic model of query execution (`build_and_execute`, dataview.rs 99-226)

`build_and_execute` assembles SQL text and runs it on SQLite. The
embedding below gives, branch for branch, the SQLite evaluation
semantics of exactly the fragments the source emits, over a modelled
relational store (`QueryDB`). SQLite's three-valued logic is `Option
Bool` (`none` = NULL); `LIKE` is the ASCII-case-insensitive `%`/`_`
pattern match; comparing an INTEGER column with a TEXT parameter
applies the column's numeric affinity to the parameter when it parses
as an integer, and otherwise uses SQLite's type order (numbers sort
before text). -/

/-- A row of the `notes` table (schema.rs 8-18). The stored
`frontmatter` JSON column is modelled as the parsed key→value map
(`none` = SQL NULL). -/
structure NoteRow where
  id : String
  path : String
  title : String
  createdAt : Int
  modifiedAt : Int
  frontmatter : Option (List (String × FmValue))
  archived : Bool
deriving DecidableEq, Repr

/-- A row of the `tags` table (schema.rs 89-93). -/
structure TagRow where
  noteId : String
  tag : String
deriving DecidableEq, Repr

/-- A row of the `backlinks` table (schema.rs 69-74). -/
structure BacklinkRow where
  sourceId : String
  targetPath : String
  context : String
deriving DecidableEq, Repr

/-- The relational store a dataview query runs against. -/
structure QueryDB where
  notes : List NoteRow
  tags : List TagRow
  backlinks : List BacklinkRow
deriving Repr

/-- `FromSource` (dataview.rs 20-23). -/
structure FromSource where
  sourceType : String
  value : String
deriving DecidableEq, Repr

/-- `SortClause` (dataview.rs 37-40). -/
structure SortClause where
  field : String
  direction : String
deriving DecidableEq, Repr

/-- `SerializedQuery` (dataview.rs 44-52). -/
structure SQuery where
  queryType : String
  fields : List String
  fromSources : List FromSource
  whereClause : Option SCond
  sortClauses : List SortClause
  groupBy : Option String
  limit : Option Int

/-- A decoded output value (`serde_json::Value` in `DataviewRow`). -/
inductive JsonVal where
  | s (v : String)
  | i (v : Int)
  | arr (items : List String)
deriving DecidableEq, Repr

/-- `DataviewRow` (dataview.rs 56-60); the `values` HashMap is an
association list. -/
structure DataviewRow where
  path : String
  title : String
  values : List (String × JsonVal)
deriving DecidableEq, Repr

/-- `DataviewResult` (dataview.rs 65-72). -/
structure DataviewResult where
  resultType : String
  columns : Option (List String)
  rows : List DataviewRow
  error : Option String
  executionTime : Option Nat
deriving DecidableEq, Repr

/-- `DataviewResult::error` (dataview.rs 75-83): an error result
carries no rows. -/
def DataviewResult.mkError (message : String) : DataviewResult :=
  { resultType := "LIST", columns := none, rows := [], error := some message,
    executionTime := none }

/-- A SQLite value produced by a compiled column expression. -/
inductive SqlV where
  | s (v : String)
  | i (v : Int)
  | null
deriving DecidableEq, Repr

/-- SQLite `LIKE`, with fuel (the pattern-plus-text length strictly
decreases on every step, so `len p + len t + 1` fuel always suffices):
`%` matches any run, `_` one character, letters ASCII-case-insensitively. -/
def likeFuel : Nat → List Char → List Char → Bool
  | 0, _, _ => false
  | _ + 1, [], t => t.isEmpty
  | fuel + 1, p :: ps, t =>
    if p = '%' then
      likeFuel fuel ps t ||
        (match t with
         | [] => false
         | _ :: ts => likeFuel fuel (p :: ps) ts)
    else
      match t with
      | [] => false
      | c :: ts =>
        if p = '_' then likeFuel fuel ps ts
        else (p.toLower == c.toLower) && likeFuel fuel ps ts

/-- `text LIKE pattern` in SQLite. -/
def likeMatch (pattern text : String) : Bool :=
  likeFuel (pattern.length + text.length + 1) pattern.toList text.toList

/-- Integer comparison for each SQL comparison operator. -/
def intCmpB (x y : Int) (op : String) : Bool :=
  if op = "=" then x == y
  else if op = "!=" then x != y
  else if op = ">" then decide (y < x)
  else if op = "<" then decide (x < y)
  else if op = ">=" then decide (y ≤ x)
  else if op = "<=" then decide (x ≤ y)
  else false

/-- INTEGER column against a TEXT parameter that does not parse as a
number: in SQLite's type order every number sorts before every text. -/
def intTextCmpB (op : String) : Bool :=
  op = "!=" || op = "<" || op = "<="

/-- TEXT column comparison (BINARY collation modelled as code-point
order, which agrees with UTF-8 byte order). -/
def strCmpB (s p : String) (op : String) : Bool :=
  if op = "=" then s == p
  else if op = "!=" then s != p
  else if op = ">" then decide (p < s)
  else if op = "<" then decide (s < p)
  else if op = ">=" then !(decide (s < p))
  else if op = "<=" then !(decide (p < s))
  else false

/-- `column op ?` with a TEXT bound parameter, in three-valued logic:
a NULL column makes every comparison (and `LIKE`) NULL. -/
def evalCmp : SqlV → String → String → Option Bool
  | SqlV.null, _, _ => none
  | SqlV.i x, op, param =>
    if op = "LIKE" then some (likeMatch param (toString x))
    else
      match param.toInt? with
      | some y => some (intCmpB x y op)
      | none => some (intTextCmpB op)
  | SqlV.s s, op, param =>
    if op = "LIKE" then some (likeMatch param s)
    else some (strCmpB s param op)

/-- Kleene AND / OR / NOT for SQL's three-valued logic. -/
def t3and : Option Bool → Option Bool → Option Bool
  | some false, _ => some false
  | _, some false => some false
  | some true, some true => some true
  | _, _ => none

def t3or : Option Bool → Option Bool → Option Bool
  | some true, _ => some true
  | _, some true => some true
  | some false, some false => some false
  | _, _ => none

def t3not : Option Bool → Option Bool
  | some b => some (!b)
  | none => none

def kleeneAll (l : List (Option Bool)) : Option Bool :=
  l.foldr t3and (some true)

def kleeneAny (l : List (Option Bool)) : Option Bool :=
  l.foldr t3or (some false)

/-- The JSON text `json_extract` returns for an array value. -/
def jsonArrayRender (items : List String) : String :=
  "[" ++ String.intercalate "," (items.map (fun s => "\x22" ++ s ++ "\x22")) ++ "]"

/-- `json_extract(n.frontmatter, '$.field')`: NULL when the column or
the key is absent; a string value is unquoted, an array value is its
JSON text. -/
def jsonExtractSem (fm : Option (List (String × FmValue))) (field : String) : SqlV :=
  match fm with
  | none => SqlV.null
  | some m =>
    match fmLookup m field with
    | none => SqlV.null
    | some (FmValue.str s) => SqlV.s s
    | some (FmValue.arr items) => SqlV.s (jsonArrayRender items)

/-- The `file.folder` expression
`substr(n.path, 1, length(n.path) - length(replace(n.path, '/', '')) - 1)`:
the first `slashCount - 1` characters of the path (empty when the
length argument is not positive). -/
def folderExprSem (path : String) : SqlV :=
  let slashes := path.toList.countP (fun c => c = '/')
  SqlV.s (String.mk (path.toList.take (slashes - 1)))

/-- The SQLite value of the column/expression `map_field_to_sql` maps a
field to, on a joined row (`t` is the LEFT-JOINed `tags` row, NULL when
absent). -/
def fieldValueSem (field : String) (n : NoteRow) (t : Option TagRow) : SqlV :=
  if field = "file.name" ∨ field = "title" then SqlV.s n.title
  else if field = "file.path" ∨ field = "path" then SqlV.s n.path
  else if field = "file.ctime" ∨ field = "created" then SqlV.i n.createdAt
  else if field = "file.mtime" ∨ field = "modified" then SqlV.i n.modifiedAt
  else if field = "file.folder" then folderExprSem n.path
  else if field = "file.tags" ∨ field = "tags" then
    match t with
    | some tr => SqlV.s tr.tag
    | none => SqlV.null
  else jsonExtractSem n.frontmatter field

/-- A compiled predicate over one joined row. -/
def Pred := NoteRow → Option TagRow → Option Bool

mutual
/-- The SQLite semantics of the fragment `build_condition` emits,
branch for branch (an `and`/`or` with an *empty* list compiles to the
SQL `()`, which would fail at prepare; the claims never exercise that
corner and it is evaluated as the neutral element here). -/
def buildCondSem : SCond → Except String Pred
  | SCond.mk ctype field operator value conditions =>
    if ctype = "comparison" then
      match field with
      | none => Except.error "Missing field in comparison"
      | some f =>
        match operator with
        | none => Except.error "Missing operator in comparison"
        | some op =>
          match value with
          | none => Except.error "Missing value in comparison"
          | some v =>
            (map_operator_and_value op v).map (fun p =>
              fun n t => evalCmp (fieldValueSem f n t) p.1 p.2)
    else if ctype = "and" then
      match conditions with
      | none => Except.error "Missing conditions in AND"
      | some cs =>
        (buildCondSemList cs).map (fun ps =>
          fun n t => kleeneAll (ps.map (fun p => p n t)))
    else if ctype = "or" then
      match conditions with
      | none => Except.error "Missing conditions in OR"
      | some cs =>
        (buildCondSemList cs).map (fun ps =>
          fun n t => kleeneAny (ps.map (fun p => p n t)))
    else if ctype = "not" then
      match conditions with
      | none => Except.error "Missing conditions in NOT"
      | some cs =>
        match cs with
        | [] => Except.error "Empty NOT conditions"
        | c :: _ => (buildCondSem c).map (fun p => fun n t => t3not (p n t))
    else Except.error ("Unknown condition type: " ++ ctype)

def buildCondSemList : List SCond → Except String (List Pred)
  | [] => Except.ok []
  | c :: rest =>
    (buildCondSem c).bind (fun p =>
      (buildCondSemList rest).map (fun ps => p :: ps))
end

mutual
/-- `condition_references_tags` (dataview.rs 228-245). -/
def condRefsTags : SCond → Bool
  | SCond.mk _ field _ _ conditions =>
    (match field with
     | some f => f.startsWith "file.tags" || f = "tags"
     | none => false) ||
    (match conditions with
     | some cs => condRefsTagsList cs
     | none => false)

def condRefsTagsList : List SCond → Bool
  | [] => false
  | c :: rest => condRefsTags c || condRefsTagsList rest
end

def condReferencesTags : Option SCond → Bool
  | none => false
  | some c => condRefsTags c

/-- Rust `str::trim_matches` with a character predicate: strip all
matching characters from both ends. -/
def trimMatchesP (s : String) (p : Char → Bool) : String :=
  String.mk (((s.toList.dropWhile p).reverse.dropWhile p).reverse)

/-- Compile the `where_clause`, propagating `build_condition` errors
exactly as the `?` at dataview.rs 151 does. -/
def compileWhere (q : SQuery) : Except String (Option Pred) :=
  match q.whereClause with
  | none => Except.ok none
  | some c => (buildCondSem c).map some

/-- The LEFT JOIN with `tags` (a note with no tags yields one row with
a NULL `t`). -/
def leftJoinTags (db : QueryDB) (needsJoin : Bool) (n : NoteRow) : List (Option TagRow) :=
  if needsJoin then
    match db.tags.filter (fun t => t.noteId == n.id) with
    | [] => [none]
    | ts => ts.map some
  else [none]

/-- The backlink rows admitted by one `link` source's INNER JOIN
condition `b.source_id = n.id AND b.target_path LIKE %target%`. -/
def linkMatches (db : QueryDB) (n : NoteRow) (src : FromSource) : List BacklinkRow :=
  let target := trimMatchesP src.value (fun c => c = '[' || c = ']')
  db.backlinks.filter (fun b =>
    b.sourceId == n.id && likeMatch ("%" ++ target ++ "%") b.targetPath)

/-- The INNER-JOIN fan-out of all `link` sources (one joined row per
combination of matching backlinks; a source with no match drops the
note). -/
def linkCombos (db : QueryDB) (n : NoteRow) (srcs : List FromSource) :
    List (List BacklinkRow) :=
  srcs.foldr
    (fun src acc => (linkMatches db n src).flatMap (fun b => acc.map (fun rest => b :: rest)))
    [[]]

/-- All joined rows of the FROM clause. -/
def rowTuples (db : QueryDB) (q : SQuery) (needsJoin : Bool) :
    List (NoteRow × Option TagRow) :=
  db.notes.flatMap (fun n =>
    (leftJoinTags db needsJoin n).flatMap (fun t =>
      (linkCombos db n (q.fromSources.filter (fun s => s.sourceType = "link"))).map
        (fun _ => (n, t))))

/-- The conjunction of `where_parts` (dataview.rs 118-159): the
unconditional `n.archived = 0`, the folder and tag source filters, and
the compiled condition (which must evaluate to true — NULL, like
false, drops the row). -/
def wherePasses (q : SQuery) (condPred : Option Pred) (n : NoteRow)
    (t : Option TagRow) : Bool :=
  !n.archived &&
  q.fromSources.all (fun s =>
    if s.sourceType = "folder" then
      likeMatch (trimMatchesP (trimMatchesP s.value (fun c => c = '\x22')) (fun c => c = '/') ++ "%") n.path
    else if s.sourceType = "tag" then
      match t with
      | some tr => tr.tag == trimMatchesP s.value (fun c => c = '#')
      | none => false
    else true) &&
  (match condPred with
   | none => true
   | some p => p n t == some true)

/-- `GROUP BY n.id`: one row per note id, first in scan order. -/
def dedupByKeyAux {α : Type} (key : α → String) (seen : List String) :
    List α → List α
  | [] => []
  | x :: xs =>
    if seen.contains (key x) then dedupByKeyAux key seen xs
    else x :: dedupByKeyAux key (key x :: seen) xs

def dedupByKey {α : Type} (key : α → String) (l : List α) : List α :=
  dedupByKeyAux key [] l

/-- SQLite's cross-type ORDER: NULL, then numbers, then text. -/
def sqlLe (a b : SqlV) : Bool :=
  match a, b with
  | SqlV.null, _ => true
  | _, SqlV.null => false
  | SqlV.i x, SqlV.i y => decide (x ≤ y)
  | SqlV.i _, SqlV.s _ => true
  | SqlV.s _, SqlV.i _ => false
  | SqlV.s x, SqlV.s y => decide (x ≤ y)

/-- Lexicographic order of the ORDER BY clauses (each ASC unless the
direction upper-cases to DESC, dataview.rs 167-186). -/
def sortKeyLe (clauses : List SortClause) (a b : NoteRow × Option TagRow) : Bool :=
  match clauses with
  | [] => true
  | c :: rest =>
    let va := fieldValueSem c.field a.1 a.2
    let vb := fieldValueSem c.field b.1 b.2
    if va == vb then sortKeyLe rest a b
    else if toUpperAscii c.direction = "DESC" then sqlLe vb va
    else sqlLe va vb

def insertSorted {α : Type} (le : α → α → Bool) (x : α) : List α → List α
  | [] => [x]
  | y :: ys => if le x y then x :: y :: ys else y :: insertSorted le x ys

def sortByLe {α : Type} (le : α → α → Bool) (l : List α) : List α :=
  l.foldr (insertSorted le) []

/-- ORDER BY: the explicit clauses, else `n.modified_at DESC`. -/
def sortRows (q : SQuery) (l : List (NoteRow × Option TagRow)) :
    List (NoteRow × Option TagRow) :=
  if q.sortClauses.isEmpty then
    sortByLe (fun a b => decide (b.1.modifiedAt ≤ a.1.modifiedAt)) l
  else sortByLe (sortKeyLe q.sortClauses) l

/-- LIMIT (a negative limit is no limit in SQLite). -/
def applyLimit (q : SQuery) (l : List (NoteRow × Option TagRow)) :
    List (NoteRow × Option TagRow) :=
  match q.limit with
  | some lim => if lim < 0 then l else l.take lim.toNat
  | none => l

/-- HashMap insert on the association list. -/
def assocInsert (m : List (String × JsonVal)) (k : String) (v : JsonVal) :
    List (String × JsonVal) :=
  if (m.find? (fun p => p.1 = k)).isSome then
    m.map (fun p => if p.1 = k then (k, v) else p)
  else m ++ [(k, v)]

/-- `path[..last_slash]`: the path up to (excluding) its last `/`. -/
def pathUpToLastSlash (path : String) : Option String :=
  match (path.toList.reverse.dropWhile (fun c => ¬ c = '/')) with
  | [] => none
  | _ :: pre => some (String.mk pre.reverse)

def jsonOfFm : FmValue → JsonVal
  | FmValue.str s => JsonVal.s s
  | FmValue.arr items => JsonVal.arr items

/-- `extract_row` (dataview.rs 359-400): the standard virtual fields,
the folder when the path has a slash, then every requested
non-`file.`-prefixed field found in the note's front matter. -/
def extractRowSem (n : NoteRow) (fields : List String) : DataviewRow :=
  let values : List (String × JsonVal) := []
  let values := assocInsert values "file.name" (JsonVal.s n.title)
  let values := assocInsert values "file.path" (JsonVal.s n.path)
  let values := assocInsert values "file.ctime" (JsonVal.i n.createdAt)
  let values := assocInsert values "file.mtime" (JsonVal.i n.modifiedAt)
  let values :=
    match pathUpToLastSlash n.path with
    | some folder => assocInsert values "file.folder" (JsonVal.s folder)
    | none => values
  let values :=
    match n.frontmatter with
    | some fm =>
      fields.foldl (fun vs field =>
        if field.startsWith "file." then vs
        else
          match fmLookup fm field with
          | some fv => assocInsert vs field (jsonOfFm fv)
          | none => vs) values
    | none => values
  { path := n.path, title := n.title, values := values }

/-- The row-collection loop (dataview.rs 207-213): push decoded rows
in order; the first row error aborts the whole result set with
`Row error: …`. -/
def collectRows : List (Except String DataviewRow) → Except String (List DataviewRow)
  | [] => Except.ok []
  | Except.ok r :: rest => (collectRows rest).map (fun rs => r :: rs)
  | Except.error e :: _ => Except.error ("Row error: " ++ e)

/-- The joined rows that survive WHERE, GROUP BY, ORDER BY and LIMIT. -/
def resultTuples (db : QueryDB) (q : SQuery) (condPred : Option Pred) :
    List (NoteRow × Option TagRow) :=
  let needsTagsJoin := q.fromSources.any (fun s => s.sourceType = "tag") ||
    condReferencesTags q.whereClause
  let tuples := rowTuples db q needsTagsJoin
  let filtered := tuples.filter (fun nt => wherePasses q condPred nt.1 nt.2)
  let grouped := if needsTagsJoin then dedupByKey (fun nt => nt.1.id) filtered
    else filtered
  applyLimit q (sortRows q grouped)

/-- `build_and_execute` (dataview.rs 99-226) over the modelled store:
compile the WHERE condition, join, filter, group, order, limit, and
decode rows. -/
def buildAndExecuteSem (db : QueryDB) (q : SQuery) : Except String DataviewResult :=
  match compileWhere q with
  | Except.error e => Except.error e
  | Except.ok condPred =>
    match collectRows ((resultTuples db q condPred).map
        (fun nt => Except.ok (extractRowSem nt.1 q.fields))) with
    | Except.error e => Except.error e
    | Except.ok rows =>
      Except.ok
        { resultType := q.queryType,
          columns := if q.queryType = "TABLE" then some q.fields else none,
          rows := rows, error := none, executionTime := none }

/-- `execute_query` (dataview.rs 87-97): a build/execute error becomes
an error result with no rows (the measured execution time is modelled
as 0). -/
def executeQuerySem (db : QueryDB) (q : SQuery) : DataviewResult :=
  match buildAndExecuteSem db q with
  | Except.ok r => { r with executionTime := some 0 }
  | Except.error e => DataviewResult.mkError e

/-! ## Theorems about the archived filter (claim C3) -/

theorem mem_insertSorted {α : Type} (le : α → α → Bool) (x a : α) :
    ∀ l, a ∈ insertSorted le x l → a = x ∨ a ∈ l := by
  intro l
  induction l with
  | nil => intro h; simp [insertSorted] at h; exact Or.inl h
  | cons y ys ih =>
    intro h
    simp only [insertSorted] at h
    split at h
    · rcases List.mem_cons.1 h with rfl | h'
      · exact Or.inl rfl
      · exact Or.inr h'
    · rcases List.mem_cons.1 h with rfl | h'
      · exact Or.inr (List.mem_cons_self _ _)
      · rcases ih h' with rfl | h''
        · exact Or.inl rfl
        · exact Or.inr (List.mem_cons_of_mem _ h'')

theorem mem_sortByLe {α : Type} (le : α → α → Bool) (a : α) :
    ∀ l, a ∈ sortByLe le l → a ∈ l := by
  intro l
  induction l with
  | nil => intro h; simp [sortByLe] at h
  | cons y ys ih =>
    intro h
    simp only [sortByLe, List.foldr_cons] at h
    rcases mem_insertSorted le y a _ h with rfl | h'
    · exact List.mem_cons_self _ _
    · exact List.mem_cons_of_mem _ (ih h')

theorem mem_dedupByKeyAux {α : Type} (key : α → String) (a : α) :
    ∀ (l : List α) (seen : List String), a ∈ dedupByKeyAux key seen l → a ∈ l := by
  intro l
  induction l with
  | nil => intro seen h; simp [dedupByKeyAux] at h
  | cons x xs ih =>
    intro seen h
    simp only [dedupByKeyAux] at h
    split at h
    · exact List.mem_cons_of_mem _ (ih seen h)
    · rcases List.mem_cons.1 h with rfl | h'
      · exact List.mem_cons_self _ _
      · exact List.mem_cons_of_mem _ (ih _ h')

theorem collectRows_map_ok {α : Type} (f : α → DataviewRow) (l : List α) :
    collectRows (l.map (fun x => Except.ok (f x))) = Except.ok (l.map f) := by
  induction l with
  | nil => rfl
  | cons r rs ih => simp [collectRows, ih, Except.map]

theorem mem_applyLimit (q : SQuery) (l : List (NoteRow × Option TagRow))
    (nt : NoteRow × Option TagRow) (h : nt ∈ applyLimit q l) : nt ∈ l := by
  unfold applyLimit at h
  split at h
  · split at h
    · exact h
    · exact List.take_subset _ _ h
  · exact h

theorem mem_sortRows (q : SQuery) (l : List (NoteRow × Option TagRow))
    (nt : NoteRow × Option TagRow) (h : nt ∈ sortRows q l) : nt ∈ l := by
  unfold sortRows at h
  split at h
  · exact mem_sortByLe _ _ _ h
  · exact mem_sortByLe _ _ _ h

theorem mem_dedupByKey {α : Type} (key : α → String) (l : List α) (a : α)
    (h : a ∈ dedupByKey key l) : a ∈ l :=
  mem_dedupByKeyAux key a l [] h

/-- Any tuple surviving the pipeline comes from a non-archived note of
the store. -/
theorem mem_resultTuples (db : QueryDB) (q : SQuery) (condPred : Option Pred)
    (nt : NoteRow × Option TagRow) (h : nt ∈ resultTuples db q condPred) :
    nt.1 ∈ db.notes ∧ nt.1.archived = false := by
  unfold resultTuples at h
  dsimp only at h
  have hgrouped := mem_sortRows _ _ _ (mem_applyLimit _ _ _ h)
  have hfiltered : nt ∈ (rowTuples db q
      ((q.fromSources.any fun s => s.sourceType = "tag") ||
        condReferencesTags q.whereClause)).filter
      (fun nt => wherePasses q condPred nt.1 nt.2) := by
    split at hgrouped
    · exact mem_dedupByKey _ _ _ hgrouped
    · exact hgrouped
  rw [List.mem_filter] at hfiltered
  obtain ⟨htup, hwhere⟩ := hfiltered
  have harch : nt.1.archived = false := by
    unfold wherePasses at hwhere
    simp only [Bool.and_eq_true, Bool.not_eq_true'] at hwhere
    exact hwhere.1.1
  refine ⟨?_, harch⟩
  unfold rowTuples at htup
  rw [List.mem_flatMap] at htup
  obtain ⟨n, hn, hrest⟩ := htup
  rw [List.mem_flatMap] at hrest
  obtain ⟨t, _, hmap⟩ := hrest
  rw [List.mem_map] at hmap
  obtain ⟨_, _, rfl⟩ := hmap
  exact hn

/-- Claim C3, amended: `execute_query` *never* returns a row for a
note with the archived flag set — the `n.archived = 0` predicate is
pushed unconditionally (dataview.rs 120-121), and nothing in the
condition tree or the from-source filters can override it. Every
returned row belongs to a non-archived note of the store. -/
theorem executeQuery_never_returns_archived (db : QueryDB) (q : SQuery) :
    ∀ r ∈ (executeQuerySem db q).rows,
      ∃ n ∈ db.notes, n.archived = false ∧ r.path = n.path ∧ r.title = n.title := by
  intro r hr
  unfold executeQuerySem at hr
  cases hb : buildAndExecuteSem db q with
  | error e =>
    rw [hb] at hr
    simp [DataviewResult.mkError] at hr
  | ok res =>
    rw [hb] at hr
    simp only at hr
    unfold buildAndExecuteSem at hb
    cases hc : compileWhere q with
    | error e => rw [hc] at hb; cases hb
    | ok condPred =>
      rw [hc] at hb
      simp only [collectRows_map_ok] at hb
      cases hb
      simp only [List.mem_map] at hr
      obtain ⟨nt, hnt, rfl⟩ := hr
      obtain ⟨hmem, harch⟩ := mem_resultTuples db q condPred nt hnt
      exact ⟨nt.1, hmem, harch, rfl, rfl⟩

/-- Witness for `executeQuery_never_returns_archived`: a store with one
non-archived note and the trivial query; the returned row is traced to
that note. -/
theorem executeQuery_never_returns_archived_witness :
    extractRowSem ⟨"id2", "notes/b.md", "Beta", 11, 25, none, false⟩ [] ∈
      (executeQuerySem
        ⟨[⟨"id2", "notes/b.md", "Beta", 11, 25, none, false⟩], [], []⟩
        ⟨"LIST", [], [], none, [], none, none⟩).rows ∧
    (∃ n ∈ (⟨[⟨"id2", "notes/b.md", "Beta", 11, 25, none, false⟩], [], []⟩ : QueryDB).notes,
      n.archived = false ∧
      (extractRowSem ⟨"id2", "notes/b.md", "Beta", 11, 25, none, false⟩ []).path = n.path ∧
      (extractRowSem ⟨"id2", "notes/b.md", "Beta", 11, 25, none, false⟩ []).title = n.title) :=
  ⟨by decide,
   executeQuery_never_returns_archived
     ⟨[⟨"id2", "notes/b.md", "Beta", 11, 25, none, false⟩], [], []⟩
     ⟨"LIST", [], [], none, [], none, none⟩
     (extractRowSem ⟨"id2", "notes/b.md", "Beta", 11, 25, none, false⟩ [])
     (by decide)⟩

/-- Counterexample to claim C3 as stated: the claim's second half says
that a query whose condition tree explicitly overrides the archived
filter can return archived notes. Here the store holds exactly one
note, archived, whose front matter satisfies the override condition
`archived = "true"`; the query compiles and runs without error, yet
returns no rows, because `n.archived = 0` is ANDed unconditionally. -/
theorem executeQuery_archived_override_counterexample :
    (executeQuerySem
        ⟨[⟨"id1", "notes/secret.md", "Secret", 10, 20,
            some [("archived", FmValue.str "true")], true⟩], [], []⟩
        ⟨"LIST", [], [],
          some (SCond.mk "comparison" (some "archived") (some "=")
            (some (Jv.str "true")) none), [], none, none⟩).rows = [] ∧
    (executeQuerySem
        ⟨[⟨"id1", "notes/secret.md", "Secret", 10, 20,
            some [("archived", FmValue.str "true")], true⟩], [], []⟩
        ⟨"LIST", [], [],
          some (SCond.mk "comparison" (some "archived") (some "=")
            (some (Jv.str "true")) none), [], none, none⟩).error = none ∧
    (⟨[⟨"id1", "notes/secret.md", "Secret", 10, 20,
        some [("archived", FmValue.str "true")], true⟩], [], []⟩ : QueryDB).notes.map
      (fun n => n.archived) = [true] := by
  refine ⟨by decide, by decide, by decide⟩

/-! ## Theorems about malformed conditions (claim C4) -/

/-- The operator set recognised by `map_operator_and_value` (after
upper-casing). -/
def knownOperator (op : String) : Bool :=
  let u := toUpperAscii op
  u = "=" || u = "!=" || u = ">" || u = "<" || u = ">=" || u = "<=" ||
    u = "CONTAINS" || u = "STARTSWITH" || u = "ENDSWITH"

/-- A condition node that is malformed at its root in one of the ways
claim C4 enumerates: a comparison leaf missing its field, operator or
value, or with an operator outside the known set; or a branch missing
its sub-conditions (`not` also errors on an empty list). -/
def MalformedRoot (c : SCond) : Prop :=
  (c.conditionType = "comparison" ∧
    (c.field = none ∨ c.operator = none ∨ c.value = none ∨
      (∃ op, c.operator = some op ∧ knownOperator op = false))) ∨
  ((c.conditionType = "and" ∨ c.conditionType = "or" ∨ c.conditionType = "not") ∧
    c.conditions = none) ∨
  (c.conditionType = "not" ∧ c.conditions = some [])

/-- A condition tree containing a malformed part where the compiler
examines it: at the root, under the children of an `and`/`or` branch,
or under the (single, per the input shape) child of a `not` branch. -/
inductive HasMalformed : SCond → Prop where
  | root (c : SCond) : MalformedRoot c → HasMalformed c
  | andChild (t : String) (f o : Option String) (v : Option Jv)
      (cs : List SCond) (x : SCond) :
      t = "and" ∨ t = "or" → x ∈ cs → HasMalformed x →
      HasMalformed (SCond.mk t f o v (some cs))
  | notChild (f o : Option String) (v : Option Jv) (x : SCond)
      (rest : List SCond) :
      HasMalformed x → HasMalformed (SCond.mk "not" f o v (some (x :: rest)))

theorem append_ne_empty_left (a b : String) (h : 0 < a.length) : a ++ b ≠ "" := by
  intro hcon
  have hl := congrArg String.length hcon
  rw [String.length_append] at hl
  simp at hl
  omega

theorem mov_unknown (op : String) (v : Jv) (h : knownOperator op = false) :
    map_operator_and_value op v = Except.error ("Unknown operator: " ++ op) := by
  unfold knownOperator at h
  simp only [Bool.or_eq_false_iff, decide_eq_false_iff_not] at h
  obtain ⟨⟨⟨⟨⟨⟨⟨⟨h1, h2⟩, h3⟩, h4⟩, h5⟩, h6⟩, h7⟩, h8⟩, h9⟩ := h
  unfold map_operator_and_value
  dsimp only
  split_ifs
  rfl

/-- Every error message of `map_operator_and_value` is non-empty. -/
theorem mov_err_ne (op : String) (v : Jv) (m : String)
    (h : map_operator_and_value op v = Except.error m) : m ≠ "" := by
  unfold map_operator_and_value at h
  dsimp only at h
  split_ifs at h
  all_goals
    first
      | exact Except.noConfusion h
      | (injection h with h'
         subst h'
         exact append_ne_empty_left "Unknown operator: " op (by decide))

theorem buildCondSemList_err_ne (cs : List SCond)
    (hpt : ∀ c ∈ cs, ∀ m, buildCondSem c = Except.error m → m ≠ "") :
    ∀ m, buildCondSemList cs = Except.error m → m ≠ "" := by
  induction cs with
  | nil => intro m h; simp [buildCondSemList] at h
  | cons c rest ih =>
    intro m h
    simp only [buildCondSemList] at h
    cases hc : buildCondSem c with
    | error e =>
      rw [hc] at h
      simp only [Except.bind] at h
      injection h with h'
      subst h'
      exact hpt c (List.mem_cons_self _ _) _ hc
    | ok p =>
      rw [hc] at h
      simp only [Except.bind] at h
      cases hr : buildCondSemList rest with
      | error e =>
        rw [hr] at h
        simp only [Except.map] at h
        injection h with h'
        subst h'
        exact ih (fun c' hc' => hpt c' (List.mem_cons_of_mem _ hc')) _ hr
      | ok ps =>
        rw [hr] at h
        simp [Except.map] at h

/-- Every error message `buildCondSem` can produce is non-empty. -/
theorem buildCondSem_err_ne :
    ∀ (k : Nat) (c : SCond) (m : String), condSize c ≤ k →
      buildCondSem c = Except.error m → m ≠ "" := by
  intro k
  induction k with
  | zero =>
    intro c m hsz _
    have := condSize_pos c
    omega
  | succ k ih =>
    intro c m hsz h
    cases c with
    | mk t f o v cs =>
    rw [buildCondSem.eq_def] at h
    dsimp only at h
    split_ifs at h
    · -- comparison
      cases f with
      | none => dsimp only at h; injection h with h'; subst h'; decide
      | some f' =>
        cases o with
        | none => dsimp only at h; injection h with h'; subst h'; decide
        | some op =>
          cases v with
          | none => dsimp only at h; injection h with h'; subst h'; decide
          | some v' =>
            dsimp only at h
            cases hmov : map_operator_and_value op v' with
            | error e =>
              rw [hmov] at h
              simp only [Except.map] at h
              injection h with h'
              subst h'
              exact mov_err_ne op v' _ hmov
            | ok p =>
              rw [hmov] at h
              simp [Except.map] at h
    · -- and
      cases cs with
      | none => dsimp only at h; injection h with h'; subst h'; decide
      | some l =>
        dsimp only at h
        cases hl : buildCondSemList l with
        | error e =>
          rw [hl] at h
          simp only [Except.map] at h
          injection h with h'
          subst h'
          refine buildCondSemList_err_ne l ?_ _ hl
          intro c' hc' m' h'
          have hle : condSize c' ≤ condListSize l := condSize_le_of_mem hc'
          have hsz' : 1 + condListSize l ≤ k + 1 := by simpa [condSize] using hsz
          exact ih c' m' (by omega) h'
        | ok ps =>
          rw [hl] at h
          simp [Except.map] at h
    · -- or
      cases cs with
      | none => dsimp only at h; injection h with h'; subst h'; decide
      | some l =>
        dsimp only at h
        cases hl : buildCondSemList l with
        | error e =>
          rw [hl] at h
          simp only [Except.map] at h
          injection h with h'
          subst h'
          refine buildCondSemList_err_ne l ?_ _ hl
          intro c' hc' m' h'
          have hle : condSize c' ≤ condListSize l := condSize_le_of_mem hc'
          have hsz' : 1 + condListSize l ≤ k + 1 := by simpa [condSize] using hsz
          exact ih c' m' (by omega) h'
        | ok ps =>
          rw [hl] at h
          simp [Except.map] at h
    · -- not
      cases cs with
      | none => dsimp only at h; injection h with h'; subst h'; decide
      | some l =>
        dsimp only at h
        cases l with
        | nil => injection h with h'; subst h'; decide
        | cons c' rest =>
          dsimp only at h
          cases hc : buildCondSem c' with
          | error e =>
            rw [hc] at h
            simp only [Except.map] at h
            injection h with h'
            subst h'
            have hle : condSize c' ≤ condListSize (c' :: rest) := by
              simp [condListSize]
            have hsz' : 1 + condListSize (c' :: rest) ≤ k + 1 := by
              simpa [condSize] using hsz
            exact ih c' _ (by omega) hc
          | ok p =>
            rw [hc] at h
            simp [Except.map] at h
    · -- unknown condition type
      injection h with h'
      subst h'
      exact append_ne_empty_left "Unknown condition type: " t (by decide)

/-- An error from some member of the list aborts the AND/OR loop with
a non-empty message. -/
theorem buildCondSemList_err_of_mem (cs : List SCond) (x : SCond)
    (hx : x ∈ cs) (mx : String) (hex : buildCondSem x = Except.error mx) :
    ∃ m, buildCondSemList cs = Except.error m ∧ m ≠ "" := by
  induction cs with
  | nil => cases hx
  | cons y rest ih =>
    cases hy : buildCondSem y with
    | error e =>
      refine ⟨e, ?_, buildCondSem_err_ne (condSize y) y e (Nat.le_refl _) hy⟩
      simp only [buildCondSemList, hy, Except.bind]
    | ok p =>
      rcases List.mem_cons.1 hx with rfl | hx'
      · rw [hex] at hy; cases hy
      · obtain ⟨m, hm, hne⟩ := ih hx'
        refine ⟨m, ?_, hne⟩
        simp only [buildCondSemList, hy, Except.bind, hm, Except.map]

/-- A tree with a reachable malformed part always fails to compile,
with a non-empty message. -/
theorem buildCondSem_malformed (c : SCond) (h : HasMalformed c) :
    ∃ m, buildCondSem c = Except.error m ∧ m ≠ "" := by
  induction h with
  | root c hm =>
    cases c with
    | mk t f o v cs =>
    simp only [MalformedRoot, SCond.conditionType, SCond.field, SCond.operator,
      SCond.value, SCond.conditions] at hm
    rw [buildCondSem.eq_def]
    dsimp only
    rcases hm with ⟨ht, hleaf⟩ | ⟨ht, hcs⟩ | ⟨ht, hcs⟩
    · subst ht
      simp only [if_pos rfl]
      cases f with
      | none => exact ⟨_, rfl, by decide⟩
      | some f' =>
        cases o with
        | none => exact ⟨_, rfl, by decide⟩
        | some op =>
          cases v with
          | none => exact ⟨_, rfl, by decide⟩
          | some v' =>
            dsimp only
            rcases hleaf with hf | ho | hv | ⟨op', hop', hk⟩
            · cases hf
            · cases ho
            · cases hv
            · injection hop' with hop'
              subst hop'
              rw [mov_unknown op v' hk]
              refine ⟨"Unknown operator: " ++ op, by simp [Except.map], ?_⟩
              exact append_ne_empty_left "Unknown operator: " op (by decide)
    · subst hcs
      rcases ht with rfl | rfl | rfl
      · exact ⟨"Missing conditions in AND", by rfl, by decide⟩
      · exact ⟨"Missing conditions in OR", by rfl, by decide⟩
      · exact ⟨"Missing conditions in NOT", by rfl, by decide⟩
    · subst ht
      subst hcs
      exact ⟨"Empty NOT conditions", by rfl, by decide⟩
  | andChild t f o v cs x ht hx _ ih =>
    obtain ⟨mx, hex, _⟩ := ih
    obtain ⟨m, hm, hne⟩ := buildCondSemList_err_of_mem cs x hx mx hex
    rw [buildCondSem.eq_def]
    dsimp only
    rcases ht with rfl | rfl
    · exact ⟨m, by simp [hm, Except.map], hne⟩
    · exact ⟨m, by simp [hm, Except.map], hne⟩
  | notChild f o v x rest _ ih =>
    obtain ⟨mx, hex, hne⟩ := ih
    rw [buildCondSem.eq_def]
    dsimp only
    exact ⟨mx, by simp [hex, Except.map], hne⟩

/-- Claim C4: for every query whose condition tree contains (where the
compiler examines it) a comparison leaf missing its field, operator or
value, a branch missing its sub-conditions, or an operator outside
{=, !=, >, <, >=, <=, CONTAINS, STARTSWITH, ENDSWITH}, `execute_query`
returns a result with a non-empty descriptive error message and no
rows. The model is a total function, so no panic is possible. -/
theorem executeQuery_malformed_error (db : QueryDB) (q : SQuery) (c : SCond)
    (hq : q.whereClause = some c) (hm : HasMalformed c) :
    (executeQuerySem db q).rows = [] ∧
    ∃ m, (executeQuerySem db q).error = some m ∧ m ≠ "" := by
  obtain ⟨m, he, hne⟩ := buildCondSem_malformed c hm
  have hcw : compileWhere q = Except.error m := by
    unfold compileWhere
    rw [hq]
    dsimp only
    rw [he]
    rfl
  have hbe : buildAndExecuteSem db q = Except.error m := by
    unfold buildAndExecuteSem
    rw [hcw]
  unfold executeQuerySem
  rw [hbe]
  exact ⟨rfl, m, rfl, hne⟩

/-- Witness for `executeQuery_malformed_error`: the spec's own example
`{field: "title"}` with `operator`/`value` missing, on a one-note
store. -/
theorem executeQuery_malformed_error_witness :
    (⟨"LIST", [], [],
        some (SCond.mk "comparison" (some "title") none none none),
        [], none, none⟩ : SQuery).whereClause
      = some (SCond.mk "comparison" (some "title") none none none) ∧
    ((executeQuerySem
        ⟨[⟨"id2", "notes/b.md", "Beta", 11, 25, none, false⟩], [], []⟩
        ⟨"LIST", [], [],
          some (SCond.mk "comparison" (some "title") none none none),
          [], none, none⟩).rows = [] ∧
      ∃ m, (executeQuerySem
        ⟨[⟨"id2", "notes/b.md", "Beta", 11, 25, none, false⟩], [], []⟩
        ⟨"LIST", [], [],
          some (SCond.mk "comparison" (some "title") none none none),
          [], none, none⟩).error = some m ∧ m ≠ "") :=
  ⟨rfl,
   executeQuery_malformed_error
     ⟨[⟨"id2", "notes/b.md", "Beta", 11, 25, none, false⟩], [], []⟩
     ⟨"LIST", [], [],
       some (SCond.mk "comparison" (some "title") none none none),
       [], none, none⟩
     (SCond.mk "comparison" (some "title") none none none)
     rfl
     (HasMalformed.root _ (Or.inl ⟨rfl, Or.inr (Or.inl rfl)⟩))⟩

/-! ## Theorems about row-decode failures (claim C5) -/

/-- Counterexample to claim C5 as stated: the claim says a row that
fails to decode is skipped and the remaining decoded rows are still
returned. The row-collection loop (dataview.rs 207-213) instead does
`return Err(format!("Row error: {}", e))`: with two decodable rows
around one failing row, the whole result set becomes an error — it is
not the `ok` result holding the two decodable rows. -/
theorem collectRows_counterexample :
    collectRows
        [Except.ok ⟨"a.md", "A", []⟩, Except.error "bad row",
         Except.ok ⟨"b.md", "B", []⟩]
      = Except.error "Row error: bad row" ∧
    Except.error "Row error: bad row"
      ≠ (Except.ok [⟨"a.md", "A", []⟩, ⟨"b.md", "B", []⟩] :
          Except String (List DataviewRow)) :=
  ⟨rfl, fun h => Except.noConfusion h⟩

/-- Claim C5, amended: a row that fails to decode *aborts* the whole
scan — whenever every row before the failing one decoded, the loop
returns `Row error: …` and no rows at all, discarding even the
already-decoded prefix (`build_and_execute` then surfaces this as an
error result with zero rows via `execute_query`). -/
theorem collectRows_aborts (pre : List (Except String DataviewRow))
    (e : String) (post : List (Except String DataviewRow))
    (h : ∀ x ∈ pre, ∃ r, x = Except.ok r) :
    collectRows (pre ++ Except.error e :: post)
      = Except.error ("Row error: " ++ e) := by
  induction pre with
  | nil => rfl
  | cons x xs ih =>
    obtain ⟨r, rfl⟩ := h x (List.mem_cons_self _ _)
    have h2 : collectRows (xs.append (Except.error e :: post))
        = Except.error ("Row error: " ++ e) :=
      ih (fun y hy => h y (List.mem_cons_of_mem _ hy))
    simp only [List.cons_append, collectRows, h2, Except.map]

/-- Witness for `collectRows_aborts`: one decoded row followed by one
failing row. -/
theorem collectRows_aborts_witness :
    (∀ x ∈ [(Except.ok ⟨"a.md", "A", []⟩ : Except String DataviewRow)],
      ∃ r, x = Except.ok r) ∧
    collectRows
        ([(Except.ok ⟨"a.md", "A", []⟩ : Except String DataviewRow)] ++
          Except.error "boom" :: [])
      = Except.error ("Row error: " ++ "boom") :=
  ⟨fun x hx => ⟨⟨"a.md", "A", []⟩, by simpa using hx⟩,
   collectRows_aborts [(Except.ok ⟨"a.md", "A", []⟩ : Except String DataviewRow)]
     "boom" []
     (fun x hx => ⟨⟨"a.md", "A", []⟩, by simpa using hx⟩)⟩

/-! ## Index store model (`indexer.rs` / `schema.rs`, claims C1 and C6)

`index_single_note` (indexer.rs 160-276) runs one transaction that
upserts the note row, deletes every derived row of the note, and
re-inserts the facts extracted from the note's current content. The
derived-row portion of that transaction is embedded below as
`indexNoteDerived`, parameterized by the extracted `FactSet` — the
source computes it by the pure extractors
(`extract_entities`/`extract_tags`/`extract_code_blocks`/
`extract_links`/`extract_card_links`/`extract_blocks`/
`extract_aliases`) applied to the note's content; `extract_tags` and
`extract_code_blocks` are embedded earlier in this file. -/

/-- A row of the `notes` table (schema.rs 8-18). -/
structure NoteRec where
  id : String
  path : String
  title : String
  content : String
  contentHash : String
  createdAt : Int
  modifiedAt : Int
  frontmatter : Option String
  archived : Bool
deriving DecidableEq, Repr

/-- A kanban card as consulted by the card-link resolution query
(schema.rs 122-139, only the columns that query touches). -/
structure KanbanCard where
  id : String
  boardId : String
  title : String
deriving DecidableEq, Repr

/-- A kanban board (schema.rs 113-120, the columns the card-link
resolution touches). -/
structure KanbanBoard where
  id : String
  name : String
deriving DecidableEq, Repr

/-- The set of facts `index_single_note` extracts from one note's
current content before inserting (entities as
(type, value, context, line); code blocks as
(language, content, line_start, line_end); links as
(target_path, context); card links as (card_title, board_name,
context); blocks as (block_id, content, line_number)). -/
structure FactSet where
  entities : List (String × String × String × Int)
  tags : List String
  codeBlocks : List (Option String × String × Int × Int)
  links : List (String × String)
  cardLinks : List (String × Option String × String)
  blocks : List (String × String × Int)
  aliases : List String

/-- The vault index: the `notes` table and the seven derived tables
(each row carries its note id first). The `blocks` and `aliases` table
constraints are not in the provided schema sources; Modelled from the
spec: `Block` is "unique per (note, anchor)" and aliases are
"deduplicated", matching the source's `INSERT OR REPLACE` /
`INSERT OR IGNORE` statements. -/
structure IndexDB where
  notes : List NoteRec
  entities : List (String × String × String × String × Int)
  tags : List (String × String)
  codeBlocks : List (String × Option String × String × Int × Int)
  backlinks : List (String × String × String)
  cardBacklinks : List (String × String × String)
  blocks : List (String × String × String × Int)
  aliases : List (String × String)
deriving Repr

/-- The empty index. -/
def IndexDB.empty : IndexDB := ⟨[], [], [], [], [], [], [], []⟩

def toLowerAscii (s : String) : String := String.mk (s.toList.map Char.toLower)

/-- `LOWER(a) = LOWER(b)` (SQLite `LOWER` is ASCII-only, like this
model). -/
def lowerEq (a b : String) : Bool := toLowerAscii a == toLowerAscii b

/-- The card-resolution queries of `index_single_note`
(indexer.rs 228-246): first card whose title matches
case-insensitively (and whose board name matches, when given). -/
def findCardId (cards : List KanbanCard) (boards : List KanbanBoard)
    (cardTitle : String) (boardName : Option String) : Option String :=
  match boardName with
  | some bn =>
    (cards.find? (fun c => lowerEq c.title cardTitle &&
      boards.any (fun b => b.id == c.boardId && lowerEq b.name bn))).map
      (fun c => c.id)
  | none =>
    (cards.find? (fun c => lowerEq c.title cardTitle)).map (fun c => c.id)

/-- The derived-row portion of `index_single_note`'s transaction
(indexer.rs 177-272): delete every derived row of the note, then
insert the extracted facts — plain `INSERT` for entities, tags and
code blocks; `INSERT OR IGNORE` on (source_id, target_path) for
backlinks, on (source_id, card_id) for card backlinks and on
(note_id, alias) for aliases; `INSERT OR REPLACE` on
(note_id, block_id) for blocks. -/
def indexNoteDerived (db : IndexDB) (cards : List KanbanCard)
    (boards : List KanbanBoard) (id : String) (facts : FactSet) : IndexDB :=
  { db with
    entities := (db.entities.filter (fun r => r.1 != id)) ++
      facts.entities.map (fun e => (id, e)),
    tags := (db.tags.filter (fun r => r.1 != id)) ++
      facts.tags.map (fun t => (id, t)),
    codeBlocks := (db.codeBlocks.filter (fun r => r.1 != id)) ++
      facts.codeBlocks.map (fun c => (id, c)),
    backlinks := facts.links.foldl
      (fun tbl l =>
        if tbl.any (fun r => r.1 == id && r.2.1 == l.1) then tbl
        else tbl ++ [(id, l)])
      (db.backlinks.filter (fun r => r.1 != id)),
    cardBacklinks := facts.cardLinks.foldl
      (fun tbl cl =>
        match findCardId cards boards cl.1 cl.2.1 with
        | some cid =>
          if tbl.any (fun r => r.1 == id && r.2.1 == cid) then tbl
          else tbl ++ [(id, cid, cl.2.2)]
        | none => tbl)
      (db.cardBacklinks.filter (fun r => r.1 != id)),
    blocks := facts.blocks.foldl
      (fun tbl b =>
        (tbl.filter (fun r => !(r.1 == id && r.2.1 == b.1))) ++ [(id, b)])
      (db.blocks.filter (fun r => r.1 != id)),
    aliases := facts.aliases.foldl
      (fun tbl a =>
        if tbl.any (fun r => r.1 == id && r.2 == a) then tbl
        else tbl ++ [(id, a)])
      (db.aliases.filter (fun r => r.1 != id)) }

/-- The derived rows a note owns. -/
structure DerivedSet where
  entities : List (String × String × String × String × Int)
  tags : List (String × String)
  codeBlocks : List (String × Option String × String × Int × Int)
  backlinks : List (String × String × String)
  cardBacklinks : List (String × String × String)
  blocks : List (String × String × String × Int)
  aliases : List (String × String)
deriving DecidableEq, Repr

def DerivedSet.empty : DerivedSet := ⟨[], [], [], [], [], [], []⟩

/-- All derived rows referencing note `id`. -/
def derivedFor (id : String) (db : IndexDB) : DerivedSet :=
  { entities := db.entities.filter (fun r => r.1 == id),
    tags := db.tags.filter (fun r => r.1 == id),
    codeBlocks := db.codeBlocks.filter (fun r => r.1 == id),
    backlinks := db.backlinks.filter (fun r => r.1 == id),
    cardBacklinks := db.cardBacklinks.filter (fun r => r.1 == id),
    blocks := db.blocks.filter (fun r => r.1 == id),
    aliases := db.aliases.filter (fun r => r.1 == id) }

/-- `remove_note_from_index` (indexer.rs 279-287):
`DELETE FROM notes WHERE path = ?1`; the derived rows disappear through
the schema's `ON DELETE CASCADE` foreign keys (schema.rs: entities,
tags, code_blocks, backlinks and card_backlinks all reference
`notes(id) ON DELETE CASCADE`). Modelled from the spec: the `blocks`
and `aliases` table definitions and the connection's foreign-key
activation are not among the provided sources; the spec's
"deletes the Note and, by cascade, every derived row referencing it"
is taken as given for them. -/
def removeNoteFromIndex (db : IndexDB) (path : String) : IndexDB :=
  let deletedIds := (db.notes.filter (fun n => n.path == path)).map (fun n => n.id)
  { notes := db.notes.filter (fun n => n.path != path),
    entities := db.entities.filter (fun r => !(deletedIds.contains r.1)),
    tags := db.tags.filter (fun r => !(deletedIds.contains r.1)),
    codeBlocks := db.codeBlocks.filter (fun r => !(deletedIds.contains r.1)),
    backlinks := db.backlinks.filter (fun r => !(deletedIds.contains r.1)),
    cardBacklinks := db.cardBacklinks.filter (fun r => !(deletedIds.contains r.1)),
    blocks := db.blocks.filter (fun r => !(deletedIds.contains r.1)),
    aliases := db.aliases.filter (fun r => !(deletedIds.contains r.1)) }

/-! ### Replace-semantics lemmas -/

theorem any_filter_of_imp {α : Type} (p q : α → Bool)
    (h : ∀ a, p a = true → q a = true) :
    ∀ l : List α, (l.filter q).any p = l.any p := by
  intro l
  induction l with
  | nil => rfl
  | cons x xs ih =>
    simp only [List.filter_cons]
    cases hq : q x with
    | true => simp [List.any_cons, ih]
    | false =>
      have hp : p x = false := by
        cases hp : p x
        · rfl
        · rw [h x hp] at hq; cases hq
      simp [List.any_cons, hp, ih]

theorem filter_ne_then_eq {α : Type} (id : String) (l : List (String × α)) :
    (l.filter (fun r => r.1 != id)).filter (fun r => r.1 == id) = [] := by
  induction l with
  | nil => rfl
  | cons x xs ih =>
    simp only [List.filter_cons]
    cases hne : (x.1 != id) with
    | false => simp only [Bool.false_eq_true, if_false]; exact ih
    | true =>
      have heq : (x.1 == id) = false := by
        revert hne
        cases hkey : (x.1 == id) <;> simp [bne, hkey]
      simp [List.filter_cons, heq, ih]

theorem filter_key_map {α : Type} (id : String) (l : List α)
    {β : Type} (f : α → β) :
    ((l.map (fun x => ((id, f x) : String × β))).filter (fun r => r.1 == id))
      = l.map (fun x => (id, f x)) := by
  induction l with
  | nil => rfl
  | cons x xs ih => simp [List.filter_cons, ih]

theorem filter_foldl_comm {α β : Type} (p : α → Bool) (step : List α → β → List α)
    (hstep : ∀ tbl x, (step tbl x).filter p = step (tbl.filter p) x) :
    ∀ (l : List β) (base : List α),
      (l.foldl step base).filter p = l.foldl step (base.filter p) := by
  intro l
  induction l with
  | nil => intro base; rfl
  | cons x xs ih =>
    intro base
    simp only [List.foldl_cons]
    rw [ih, hstep]

/-- Claim C1: the derived rows `index_single_note` leaves for a note
are a function of the extracted facts alone — indexing into any
pre-existing store leaves exactly the rows that indexing into an empty
store would (no row from a previous version survives); re-indexing the
same facts is idempotent on the note's derived rows; and the plain
`INSERT` tables (entities, tags, code blocks) hold exactly the
extracted facts. -/
theorem index_single_note_replaces (db : IndexDB) (cards : List KanbanCard)
    (boards : List KanbanBoard) (id : String) (facts : FactSet) :
    derivedFor id (indexNoteDerived db cards boards id facts)
      = derivedFor id (indexNoteDerived IndexDB.empty cards boards id facts) ∧
    derivedFor id
        (indexNoteDerived (indexNoteDerived db cards boards id facts)
          cards boards id facts)
      = derivedFor id (indexNoteDerived db cards boards id facts) ∧
    (derivedFor id (indexNoteDerived db cards boards id facts)).entities
      = facts.entities.map (fun e => (id, e)) ∧
    (derivedFor id (indexNoteDerived db cards boards id facts)).tags
      = facts.tags.map (fun t => (id, t)) ∧
    (derivedFor id (indexNoteDerived db cards boards id facts)).codeBlocks
      = facts.codeBlocks.map (fun c => (id, c)) := by
  have hstep_bl : ∀ (tbl : List (String × String × String)) (x : String × String),
      ((if tbl.any (fun r => r.1 == id && r.2.1 == x.1) then tbl
        else tbl ++ [(id, x)]).filter (fun r => r.1 == id))
      = (if (tbl.filter (fun r => r.1 == id)).any
            (fun r => r.1 == id && r.2.1 == x.1)
         then tbl.filter (fun r => r.1 == id)
         else tbl.filter (fun r => r.1 == id) ++ [(id, x)]) := by
    intro tbl x
    rw [any_filter_of_imp
      (fun (r : String × String × String) => r.1 == id && r.2.1 == x.1)
      (fun r => r.1 == id)
      (fun r h => by
        simp only [Bool.and_eq_true] at h
        exact h.1)]
    cases hany : tbl.any (fun r => r.1 == id && r.2.1 == x.1) with
    | true => simp
    | false => simp [List.filter_append]
  have hstep_cb : ∀ (tbl : List (String × String × String))
      (x : String × Option String × String),
      ((match findCardId cards boards x.1 x.2.1 with
        | some cid =>
          if tbl.any (fun r => r.1 == id && r.2.1 == cid) then tbl
          else tbl ++ [(id, cid, x.2.2)]
        | none => tbl).filter (fun (r : String × String × String) => r.1 == id))
      = (match findCardId cards boards x.1 x.2.1 with
         | some cid =>
           if (tbl.filter (fun (r : String × String × String) => r.1 == id)).any
               (fun r => r.1 == id && r.2.1 == cid)
           then tbl.filter (fun (r : String × String × String) => r.1 == id)
           else tbl.filter (fun (r : String × String × String) => r.1 == id) ++
             [(id, cid, x.2.2)]
         | none => tbl.filter (fun (r : String × String × String) => r.1 == id)) := by
    intro tbl x
    cases hfind : findCardId cards boards x.1 x.2.1 with
    | none => rfl
    | some cid =>
      dsimp only
      rw [any_filter_of_imp
        (fun (r : String × String × String) => r.1 == id && r.2.1 == cid)
        (fun r => r.1 == id)
        (fun r h => by
          simp only [Bool.and_eq_true] at h
          exact h.1)]
      cases hany : tbl.any (fun r => r.1 == id && r.2.1 == cid) with
      | true => simp
      | false => simp [List.filter_append]
  have hstep_blk : ∀ (tbl : List (String × String × String × Int))
      (x : String × String × Int),
      (((tbl.filter (fun r => !(r.1 == id && r.2.1 == x.1))) ++ [(id, x)]).filter
        (fun r => r.1 == id))
      = ((tbl.filter (fun r => r.1 == id)).filter
          (fun r => !(r.1 == id && r.2.1 == x.1))) ++ [(id, x)] := by
    intro tbl x
    rw [List.filter_append, List.filter_comm]
    simp
  have hstep_al : ∀ (tbl : List (String × String)) (x : String),
      ((if tbl.any (fun r => r.1 == id && r.2 == x) then tbl
        else tbl ++ [(id, x)]).filter (fun r => r.1 == id))
      = (if (tbl.filter (fun r => r.1 == id)).any (fun r => r.1 == id && r.2 == x)
         then tbl.filter (fun r => r.1 == id)
         else tbl.filter (fun r => r.1 == id) ++ [(id, x)]) := by
    intro tbl x
    rw [any_filter_of_imp
      (fun (r : String × String) => r.1 == id && r.2 == x)
      (fun r => r.1 == id)
      (fun r h => by
        simp only [Bool.and_eq_true] at h
        exact h.1)]
    cases hany : tbl.any (fun r => r.1 == id && r.2 == x) with
    | true => simp
    | false => simp [List.filter_append]
  have key : ∀ db' : IndexDB,
      derivedFor id (indexNoteDerived db' cards boards id facts)
        = ⟨facts.entities.map (fun e => (id, e)),
           facts.tags.map (fun t => (id, t)),
           facts.codeBlocks.map (fun c => (id, c)),
           facts.links.foldl
             (fun tbl l =>
               if tbl.any (fun r => r.1 == id && r.2.1 == l.1) then tbl
               else tbl ++ [(id, l)]) [],
           facts.cardLinks.foldl
             (fun tbl cl =>
               match findCardId cards boards cl.1 cl.2.1 with
               | some cid =>
                 if tbl.any (fun r => r.1 == id && r.2.1 == cid) then tbl
                 else tbl ++ [(id, cid, cl.2.2)]
               | none => tbl) [],
           facts.blocks.foldl
             (fun tbl b =>
               (tbl.filter (fun r => !(r.1 == id && r.2.1 == b.1))) ++ [(id, b)]) [],
           facts.aliases.foldl
             (fun tbl a =>
               if tbl.any (fun r => r.1 == id && r.2 == a) then tbl
               else tbl ++ [(id, a)]) []⟩ := by
    intro db'
    unfold derivedFor indexNoteDerived
    dsimp only
    rw [DerivedSet.mk.injEq]
    refine ⟨?_, ?_, ?_, ?_, ?_, ?_, ?_⟩
    · rw [List.filter_append, filter_ne_then_eq, filter_key_map]
      rfl
    · rw [List.filter_append, filter_ne_then_eq, filter_key_map]
      rfl
    · rw [List.filter_append, filter_ne_then_eq, filter_key_map]
      rfl
    · rw [filter_foldl_comm _ _ hstep_bl, filter_ne_then_eq]
    · rw [filter_foldl_comm _ _ hstep_cb, filter_ne_then_eq]
    · rw [filter_foldl_comm _ _ hstep_blk, filter_ne_then_eq]
    · rw [filter_foldl_comm _ _ hstep_al, filter_ne_then_eq]
  refine ⟨?_, ?_, ?_, ?_, ?_⟩
  · rw [key, key]
  · rw [key, key]
  · rw [key]
  · rw [key]
  · rw [key]

/-- Claim C6: `remove_note(path)` deletes the Note row and, through
the cascade, every derived row referencing it: afterwards no note with
that path remains and the deleted note owns no derived row in any of
the seven derived tables. -/
theorem remove_note_cascades (db : IndexDB) (p : String) :
    (∀ n ∈ (removeNoteFromIndex db p).notes, ¬ n.path = p) ∧
    (∀ n ∈ db.notes, n.path = p →
      derivedFor n.id (removeNoteFromIndex db p) = DerivedSet.empty) := by
  constructor
  · intro n hn
    unfold removeNoteFromIndex at hn
    dsimp only at hn
    rw [List.mem_filter] at hn
    have h2 := hn.2
    simpa using h2
  · intro n hn hp
    have hid : ((db.notes.filter (fun m => m.path == p)).map
        (fun m => m.id)).contains n.id = true := by
      have h1 : n ∈ db.notes.filter (fun m => m.path == p) :=
        List.mem_filter.2 ⟨hn, by simp [hp]⟩
      have h2 : n.id ∈ (db.notes.filter (fun m => m.path == p)).map
          (fun m => m.id) := List.mem_map_of_mem _ h1
      simpa using h2
    have hclear : ∀ {α : Type} (l : List (String × α)),
        ((l.filter (fun r =>
          !(((db.notes.filter (fun m => m.path == p)).map
            (fun m => m.id)).contains r.1))).filter (fun r => r.1 == n.id)) = [] := by
      intro α l
      induction l with
      | nil => rfl
      | cons x xs ih =>
        cases hc : (((db.notes.filter (fun m => m.path == p)).map
            (fun m => m.id)).contains x.1) with
        | true =>
          rw [List.filter_cons_of_neg (by rw [hc]; decide)]
          exact ih
        | false =>
          have hne : (x.1 == n.id) = false := by
            cases hx : (x.1 == n.id)
            · rfl
            · exfalso
              have hxe : x.1 = n.id := by simpa using hx
              rw [hxe] at hc
              rw [hid] at hc
              cases hc
          rw [List.filter_cons_of_pos (by rw [hc]; decide)]
          rw [List.filter_cons_of_neg (by rw [hne]; decide)]
          exact ih
    unfold removeNoteFromIndex derivedFor
    dsimp only
    rw [DerivedSet.mk.injEq]
    exact ⟨hclear _, hclear _, hclear _, hclear _, hclear _, hclear _, hclear _⟩

/-- Witness for `remove_note_cascades`: a one-note store holding one
row in each derived table; removal leaves the note gone and its
derived rows empty. -/
theorem remove_note_cascades_witness :
    (∀ n ∈ (removeNoteFromIndex
        ⟨[⟨"idA", "notes/a.md", "A", "c", "h", 0, 0, none, false⟩],
         [("idA", "ip", "1.2.3.4", "ctx", 1)], [("idA", "x")],
         [("idA", some "rs", "code", 1, 2)], [("idA", "B", "ctx")],
         [("idA", "card1", "ctx")], [("idA", "blk", "text", 3)],
         [("idA", "Alias")]⟩ "notes/a.md").notes, ¬ n.path = "notes/a.md") ∧
    ((⟨"idA", "notes/a.md", "A", "c", "h", 0, 0, none, false⟩ : NoteRec) ∈
        (⟨[⟨"idA", "notes/a.md", "A", "c", "h", 0, 0, none, false⟩],
         [("idA", "ip", "1.2.3.4", "ctx", 1)], [("idA", "x")],
         [("idA", some "rs", "code", 1, 2)], [("idA", "B", "ctx")],
         [("idA", "card1", "ctx")], [("idA", "blk", "text", 3)],
         [("idA", "Alias")]⟩ : IndexDB).notes ∧
      derivedFor "idA" (removeNoteFromIndex
        ⟨[⟨"idA", "notes/a.md", "A", "c", "h", 0, 0, none, false⟩],
         [("idA", "ip", "1.2.3.4", "ctx", 1)], [("idA", "x")],
         [("idA", some "rs", "code", 1, 2)], [("idA", "B", "ctx")],
         [("idA", "card1", "ctx")], [("idA", "blk", "text", 3)],
         [("idA", "Alias")]⟩ "notes/a.md") = DerivedSet.empty) :=
  ⟨(remove_note_cascades
      ⟨[⟨"idA", "notes/a.md", "A", "c", "h", 0, 0, none, false⟩],
       [("idA", "ip", "1.2.3.4", "ctx", 1)], [("idA", "x")],
       [("idA", some "rs", "code", 1, 2)], [("idA", "B", "ctx")],
       [("idA", "card1", "ctx")], [("idA", "blk", "text", 3)],
       [("idA", "Alias")]⟩ "notes/a.md").1,
   by decide,
   (remove_note_cascades
      ⟨[⟨"idA", "notes/a.md", "A", "c", "h", 0, 0, none, false⟩],
       [("idA", "ip", "1.2.3.4", "ctx", 1)], [("idA", "x")],
       [("idA", some "rs", "code", 1, 2)], [("idA", "B", "ctx")],
       [("idA", "card1", "ctx")], [("idA", "blk", "text", 3)],
       [("idA", "Alias")]⟩ "notes/a.md").2
     ⟨"idA", "notes/a.md", "A", "c", "h", 0, 0, none, false⟩
     (by decide) rfl⟩

/-! ### Broken-link detection (search.rs 690-755) -/

/-- The final `/`-separated component of a stored note path
(Rust `Path::file_name` for the forward-slash relative paths the
notes table stores — no trailing slash and no dot components);
`none` when the final component is empty. -/
def fileName (p : String) : Option String :=
  let comp := (p.toList.reverse.takeWhile (fun c => ¬ c = '/')).reverse
  if comp.isEmpty then none else some (String.mk comp)

/-- The characters strictly before the last `.` of a list. -/
def beforeLastDot (l : List Char) : List Char :=
  ((l.reverse.dropWhile (fun c => ¬ c = '.')).drop 1).reverse

/-- Rust `Path::file_stem`: the whole file name when it holds no
dot, or when its only dot is a leading one; otherwise the portion
before the final dot. -/
def fileStem (p : String) : Option String :=
  (fileName p).map (fun name =>
    match name.toList with
    | [] => name
    | c :: rest =>
      if (if c = '.' then rest else c :: rest).contains '.' then
        String.mk (beforeLastDot (c :: rest))
      else name)

/-- One output row of `get_broken_links` (search.rs `BrokenLink`;
the source always stores a context string, so the nullable context
column is read back as a plain string here). -/
structure BrokenLink where
  source_id : String
  source_path : String
  source_title : String
  target_reference : String
  context : String
deriving DecidableEq, Repr

/-- The target-existence test of `get_broken_links`
(search.rs 732-737): the exact stored path, the three
folder-prefix / extension variants, and the lowercased
filename-stem set. No title and no alias lookup appears here. -/
def target_exists (notePaths : List String) (filenames : List String)
    (t : String) : Bool :=
  notePaths.contains t ||
  notePaths.contains ("notes/" ++ t ++ ".md") ||
  notePaths.contains (t ++ ".md") ||
  notePaths.contains ("notes/" ++ t) ||
  filenames.contains (toLowerAscii t)

/-- `get_broken_links` (search.rs 690-755): join every backlink row
with its source note, keep those whose target reference fails
`target_exists`. The `HashSet`s of the source are modelled as the
lists they collect (only `contains` is consulted, so duplicates are
immaterial). -/
def get_broken_links (db : IndexDB) : List BrokenLink :=
  let notePaths := db.notes.map (fun n => n.path)
  let filenames := notePaths.filterMap (fun p => (fileStem p).map toLowerAscii)
  (db.backlinks.flatMap (fun b =>
      (db.notes.filter (fun n => n.id == b.1)).map (fun n => (n, b)))).filterMap
    (fun nb =>
      if target_exists notePaths filenames nb.2.2.1 then none
      else some ⟨nb.1.id, nb.1.path, nb.1.title, nb.2.2.1, nb.2.2.2⟩)

/-- C7 (counterexample): a backlink whose target reference equals a
note's title — even case-sensitively, and even when it is also a
stored alias of that note — is still reported as broken, because
`get_broken_links` consults only path variants and filename stems,
never titles or aliases. -/
theorem get_broken_links_counterexample :
    (∃ n ∈ (⟨[⟨"id1", "notes/a.md", "My Fancy Title", "c", "h", 0, 0, none,
          false⟩], [], [], [], [("id1", "My Fancy Title", "ctx")], [], [],
          [("id1", "My Fancy Title")]⟩ : IndexDB).notes,
        lowerEq n.title "My Fancy Title" = true) ∧
    ("id1", "My Fancy Title") ∈
      (⟨[⟨"id1", "notes/a.md", "My Fancy Title", "c", "h", 0, 0, none,
          false⟩], [], [], [], [("id1", "My Fancy Title", "ctx")], [], [],
          [("id1", "My Fancy Title")]⟩ : IndexDB).aliases ∧
    (get_broken_links
      ⟨[⟨"id1", "notes/a.md", "My Fancy Title", "c", "h", 0, 0, none,
          false⟩], [], [], [], [("id1", "My Fancy Title", "ctx")], [], [],
          [("id1", "My Fancy Title")]⟩).map (fun b => b.target_reference) =
      ["My Fancy Title"] := by
  refine ⟨?_, ?_, ?_⟩ <;> decide

/-- C7 (amended): `get_broken_links` reports exactly the backlink
rows, joined with their source note, whose target reference fails
every check that is actually performed — the exact stored path, the
folder-prefix and extension variants, and the case-insensitive
filename-stem set. Titles and aliases are never consulted, so a
reference resolvable only through a title or alias is reported as
broken. -/
theorem get_broken_links_amended (db : IndexDB) (bl : BrokenLink) :
    bl ∈ get_broken_links db ↔
      ∃ b ∈ db.backlinks, ∃ n ∈ db.notes, n.id = b.1 ∧
        target_exists (db.notes.map (fun n => n.path))
          ((db.notes.map (fun n => n.path)).filterMap
            (fun p => (fileStem p).map toLowerAscii)) b.2.1 = false ∧
        bl = ⟨n.id, n.path, n.title, b.2.1, b.2.2⟩ := by
  simp only [get_broken_links]
  constructor
  · intro h
    rcases List.mem_filterMap.mp h with ⟨nb, hnb, hf⟩
    rcases List.mem_flatMap.mp hnb with ⟨b, hb, hmem⟩
    rcases List.mem_map.mp hmem with ⟨n, hnfil, hpair⟩
    rcases List.mem_filter.mp hnfil with ⟨hn, hid⟩
    subst hpair
    dsimp only at hf hid
    by_cases hex : target_exists (db.notes.map (fun n => n.path))
        ((db.notes.map (fun n => n.path)).filterMap
          (fun p => (fileStem p).map toLowerAscii)) b.2.1 = true
    · rw [if_pos hex] at hf
      simp at hf
    · rw [if_neg hex] at hf
      injection hf with hf
      refine ⟨b, hb, n, hn, by simp only [beq_iff_eq] at hid; exact hid,
        by simp only [Bool.not_eq_true] at hex; exact hex, hf.symm⟩
  · rintro ⟨b, hb, n, hn, hid, hex, rfl⟩
    refine List.mem_filterMap.mpr ⟨(n, b), ?_, ?_⟩
    · exact List.mem_flatMap.mpr ⟨b, hb,
        List.mem_map.mpr ⟨n, List.mem_filter.mpr
          ⟨hn, by simp only [beq_iff_eq]; exact hid⟩, rfl⟩⟩
    · dsimp only
      rw [hex]
      simp

end Kairo
